import Mathlib

/-!
# UnknownPleasures: the wave simulation engine

A shallow embedding of `src/unknown_pleasures.hpp` (`UnknownPleasures::setup` and
`UnknownPleasures::update`) and theorems about it.

Modelling conventions.

* `float`/`double` values are elements of a linear ordered field `α` with exact arithmetic
  (the definitions run on `ℚ`; theorems about `cos` and `pow` instantiate `α := ℝ`).
* `std::vector`, `std::deque` and `ofPolyline` are lists; `v[i]` past the end of a container is
  undefined behaviour in C++ and is the fault `outOfBounds` here.
* `std::mt19937 mEngine` is an abstract state `σ`; the three distributions the code draws from
  are the fields of `Rng`, each returning the sample and the next engine state.
* `cos`, `pow`, `M_PI` (libm) and `ofSignedNoise`, `ofGetElapsedTimef` (openFrameworks) are not
  part of the repository: they are parameters.
* Loops whose trip count the code does not bound (the rejection loops, the `float` loops of
  `setup`) take an iteration budget and end in the fault `outOfFuel` when it is exceeded.
-/

namespace UnknownPleasures

/-- Ways in which a run of the embedded code fails to produce a state. -/
inductive Fault where
  /-- An element access past the end of a container. -/
  | outOfBounds
  /-- A loop that did not finish within its iteration budget. -/
  | outOfFuel
  deriving DecidableEq, Repr

/-- A vertex of an `ofPolyline` (`glm::vec3`). -/
structure Vec3 (α : Type) where
  x : α
  y : α
  z : α
  deriving DecidableEq, Repr

/-- An `ofPolyline`: its sequence of vertices. -/
abbrev ofPolyline (α : Type) := List (Vec3 α)

/-- The entries of `mParams` the engine reads (font and camera entries are left out). -/
structure Params (α : Type) where
  dy : α
  dx : α
  waveOccurProb : α
  bigWaveWidthMean : α
  bigWaveWidthStd : α
  bigWaveHeightMean : α
  bigWaveHeightStd : α
  smallWaveHeightMean : α
  smallWaveHeightStd : α
  waveMomentum : α
  perlinNoiseMagnitude : α
  calmWaveLevel : α
  deriving Repr

/-- The values `setup` stores in `mParams` (lines 34-53). -/
def defaultParams {α : Type} [LinearOrderedField α] : Params α where
  dy := 2
  dx := 0.5
  waveOccurProb := 0.02
  bigWaveWidthMean := 10
  bigWaveWidthStd := 10
  bigWaveHeightMean := 10
  bigWaveHeightStd := 10
  smallWaveHeightMean := 0
  smallWaveHeightStd := 5
  waveMomentum := 0.01
  perlinNoiseMagnitude := 0.1
  calmWaveLevel := 3

/-- The libm functions and constant used on line 149. -/
structure Libm (α : Type) where
  cos : α → α
  pow : α → α → α
  M_PI : α

/-- The distributions drawn from `mEngine`: `std::bernoulli_distribution(p)`,
`std::normal_distribution<>(mean, std)` and `std::uniform_real_distribution<>(a, b)`. -/
structure Rng (σ α : Type) where
  bernoulli : α → σ → Bool × σ
  normal : α → α → σ → α × σ
  uniform : α → α → σ → α × σ

/-- What `update` takes from outside the repository: libm, the random distributions,
`ofSignedNoise` and the value `ofGetElapsedTimef()` returns on this tick. -/
structure World (σ α : Type) where
  libm : Libm α
  rng : Rng σ α
  ofSignedNoise : α → α → α → α
  t : α

end UnknownPleasures

/-- The data members of `class UnknownPleasures` that `setup` and `update` use. -/
structure UnknownPleasures (σ α : Type) where
  mWidth : Int
  mDepth : Int
  mParams : UnknownPleasures.Params α
  mStormyWaves : List (UnknownPleasures.ofPolyline α)
  mCalmWaves : List (UnknownPleasures.ofPolyline α)
  mWaveQueues : List (List α)
  mEngine : σ

namespace UnknownPleasures

/-! ## Container access -/

/-- Reading `v[i]`. -/
def readAt {β : Type} (v : List β) (i : Nat) : Except Fault β :=
  match v[i]? with
  | some b => .ok b
  | none => .error .outOfBounds

/-- Writing `v[i] = b`. -/
def writeAt {β : Type} (v : List β) (i : Nat) (b : β) : Except Fault (List β) :=
  if i < v.length then .ok (v.set i b) else .error .outOfBounds

/-- Reading the vertex `waves[i][j]`. -/
def vertexAt {α : Type} (waves : List (ofPolyline α)) (i j : Nat) : Except Fault (Vec3 α) := do
  let wave ← readAt waves i
  readAt wave j

/-- Writing `waves[i][j].y = y`. -/
def assignY {α : Type} (waves : List (ofPolyline α)) (i j : Nat) (y : α) :
    Except Fault (List (ofPolyline α)) := do
  let wave ← readAt waves i
  let p ← readAt wave j
  writeAt waves i (wave.set j { p with y := y })

/-! ## `setup` (lines 55-66) -/

section Setup
variable {σ α : Type} [LinearOrderedField α]

/-- The inner loop `for (float x = ...; x < (mWidth >> 1); x += mParams["dx"])` of `setup`,
from the current value of `x` on: one vertex is added to the last stormy and the last calm
polyline per iteration. -/
def addColumns (z : α) : Nat → α → UnknownPleasures σ α → Except Fault (UnknownPleasures σ α)
  | 0, x, s => if x < ((s.mWidth >>> (1 : Nat) : Int) : α) then .error .outOfFuel else .ok s
  | fuel + 1, x, s =>
    if x < ((s.mWidth >>> (1 : Nat) : Int) : α) then
      addColumns z fuel (x + s.mParams.dx)
        { s with
          mStormyWaves := s.mStormyWaves.modifyLast (fun wave => wave ++ [⟨x, 0, z⟩])
          mCalmWaves := s.mCalmWaves.modifyLast (fun wave => wave ++ [⟨x, 0, z⟩]) }
    else .ok s

/-- The outer loop `for (float z = ...; z < +(mDepth >> 1); z += mParams["dy"])` of `setup`,
from the current value of `z` on. `colFuel` is the budget of each inner loop. -/
def addRows (colFuel : Nat) : Nat → α → UnknownPleasures σ α → Except Fault (UnknownPleasures σ α)
  | 0, z, s => if z < ((s.mDepth >>> (1 : Nat) : Int) : α) then .error .outOfFuel else .ok s
  | fuel + 1, z, s =>
    if z < ((s.mDepth >>> (1 : Nat) : Int) : α) then do
      let s1 : UnknownPleasures σ α :=
        { s with
          mStormyWaves := s.mStormyWaves ++ [[]]
          mCalmWaves := s.mCalmWaves ++ [[]]
          mWaveQueues := s.mWaveQueues ++ [[]] }
      let s2 ← addColumns z colFuel (((-(s1.mWidth >>> (1 : Nat)) : Int) : α)) s1
      addRows colFuel fuel (z + s2.mParams.dy) s2
    else .ok s

/-- `UnknownPleasures::setup` with `mParams` set to `P`: the constructor's `mWidth`, `mDepth`
and engine, empty containers, then the two nested loops. -/
def setupWith (P : Params α) (mWidth mDepth : Int) (mEngine : σ) (rowFuel colFuel : Nat) :
    Except Fault (UnknownPleasures σ α) :=
  let s : UnknownPleasures σ α :=
    { mWidth := mWidth, mDepth := mDepth, mParams := P,
      mStormyWaves := [], mCalmWaves := [], mWaveQueues := [], mEngine := mEngine }
  addRows colFuel rowFuel (((-(s.mDepth >>> (1 : Nat)) : Int) : α)) s

/-- `UnknownPleasures::setup` on an object constructed as `UnknownPleasures(width, depth)`. -/
def setup (mWidth mDepth : Int) (mEngine : σ) (rowFuel colFuel : Nat) :
    Except Fault (UnknownPleasures σ α) :=
  setupWith defaultParams mWidth mDepth mEngine rowFuel colFuel

end Setup

/-! ## `update`, first loop: wave occurrence (lines 81-121) -/

section Occurrence
variable {σ α : Type} [LinearOrderedField α]

/-- The rejection loop `while (v < 0) { v = dist(mEngine); }`. -/
def redraw (dist : σ → α × σ) : Nat → α → σ → Except Fault (α × σ)
  | 0, v, e => if v < 0 then .error .outOfFuel else .ok (v, e)
  | fuel + 1, v, e =>
    if v < 0 then redraw dist fuel (dist e).1 (dist e).2 else .ok (v, e)

/-- Lines 86-91 and 94-99: `auto v = dist(mEngine); while (v < 0) v = dist(mEngine);`. -/
def sampleTruncated (dist : σ → α × σ) (fuel : Nat) (e : σ) : Except Fault (α × σ) :=
  redraw dist fuel (dist e).1 (dist e).2

/-- Lines 105-108: `for (auto i = 0; i < waveWidth; ++i)
waveQueue.emplace_back(waveHeight / waveWidth * i);`, from the current `i` on. -/
def pushRising [FloorSemiring α] (waveHeight waveWidth : α) (i : Nat) (waveQueue : List α) :
    List α :=
  if (i : α) < waveWidth then
    pushRising waveHeight waveWidth (i + 1) (waveQueue ++ [waveHeight / waveWidth * (i : α)])
  else waveQueue
termination_by ⌈waveWidth⌉₊ - i
decreasing_by
  have h : i < ⌈waveWidth⌉₊ := Nat.lt_ceil.mpr (by assumption)
  omega

/-- Lines 110-113: `for (auto i = 0; i < waveWidth; ++i)
waveQueue.emplace_back(waveHeight / waveWidth * (waveWidth - i));`, from the current `i` on. -/
def pushFalling [FloorSemiring α] (waveHeight waveWidth : α) (i : Nat) (waveQueue : List α) :
    List α :=
  if (i : α) < waveWidth then
    pushFalling waveHeight waveWidth (i + 1)
      (waveQueue ++ [waveHeight / waveWidth * (waveWidth - (i : α))])
  else waveQueue
termination_by ⌈waveWidth⌉₊ - i
decreasing_by
  have h : i < ⌈waveWidth⌉₊ := Nat.lt_ceil.mpr (by assumption)
  omega

/-- Lines 102-113: the queue after `waveQueue.clear()` and the three pushes. -/
def triangleWave [FloorSemiring α] (waveHeight waveWidth : α) : List α :=
  pushFalling waveHeight waveWidth 0 (pushRising waveHeight waveWidth 0 [] ++ [waveHeight])

/-- Lines 116-119: `for (auto i = 0; i < prevWaveQueue.size(); ++i)
waveQueue[i] += prevWaveQueue[i];`, with `n` iterations left from the current `i` on. -/
def interfere (prevWaveQueue : List α) : Nat → Nat → List α → Except Fault (List α)
  | 0, _, waveQueue => .ok waveQueue
  | n + 1, i, waveQueue => do
    let a ← readAt waveQueue i
    let b ← readAt prevWaveQueue i
    let waveQueue ← writeAt waveQueue i (a + b)
    interfere prevWaveQueue n (i + 1) waveQueue

/-- Lines 101-119 for one queue, given the sampled `waveWidth` and `waveHeight`. -/
def pushWave [FloorSemiring α] (waveWidth waveHeight : α) (waveQueue : List α) :
    Except Fault (List α) :=
  let prevWaveQueue := waveQueue
  interfere prevWaveQueue prevWaveQueue.length 0 (triangleWave waveHeight waveWidth)

/-- The body of the loop `for (auto &waveQueue : mWaveQueues)` (lines 83-120). -/
def occur [FloorSemiring α] (R : Rng σ α) (P : Params α) (fuel : Nat) (waveQueue : List α)
    (e : σ) : Except Fault (List α × σ) :=
  let b := R.bernoulli P.waveOccurProb e
  if b.1 then do
    let w ← sampleTruncated (R.normal P.bigWaveWidthMean P.bigWaveWidthStd) fuel b.2
    let h ← sampleTruncated (R.normal P.bigWaveHeightMean P.bigWaveHeightStd) fuel w.2
    let waveQueue ← pushWave w.1 h.1 waveQueue
    pure (waveQueue, h.2)
  else pure (waveQueue, b.2)

/-- The loop `for (auto &waveQueue : mWaveQueues)` (lines 81-121). -/
def occurAll [FloorSemiring α] (R : Rng σ α) (P : Params α) (fuel : Nat) :
    List (List α) → σ → Except Fault (List (List α) × σ)
  | [], e => .ok ([], e)
  | waveQueue :: rest, e => do
    let r ← occur R P fuel waveQueue e
    let rs ← occurAll R P fuel rest r.2
    pure (r.1 :: rs.1, rs.2)

/-- The first loop of `update` on the whole object. -/
def waveOccurrence [FloorSemiring α] (W : World σ α) (fuel : Nat) (s : UnknownPleasures σ α) :
    Except Fault (UnknownPleasures σ α) := do
  let r ← occurAll W.rng s.mParams fuel s.mWaveQueues s.mEngine
  pure { s with mWaveQueues := r.1, mEngine := r.2 }

end Occurrence

/-! ## `update`, second loop: propagation and damping (lines 123-151) -/

section Propagation
variable {σ α : Type} [LinearOrderedField α]

/-- Lines 131-138: the left edge `j == 0` of row `i`. -/
def leftEdge (W : World σ α) (i j : Nat) (s : UnknownPleasures σ α) :
    Except Fault (UnknownPleasures σ α) := do
  let u := W.rng.uniform s.mParams.smallWaveHeightMean s.mParams.smallWaveHeightStd s.mEngine
  let stormy ← assignY s.mStormyWaves i j u.1
  let s : UnknownPleasures σ α := { s with mStormyWaves := stormy, mEngine := u.2 }
  let waveQueue ← readAt s.mWaveQueues i
  match waveQueue with
  | [] => pure s
  | front :: rest =>
    let p ← vertexAt s.mStormyWaves i j
    let stormy ← assignY s.mStormyWaves i j (p.y + front)
    let queues ← writeAt s.mWaveQueues i rest
    pure { s with mStormyWaves := stormy, mWaveQueues := queues }

/-- Lines 144-146: smoothing and noise at a column `j > 0` of row `i`. -/
def shiftRight (W : World σ α) (i j : Nat) (s : UnknownPleasures σ α) :
    Except Fault (UnknownPleasures σ α) := do
  let p ← vertexAt s.mStormyWaves i j
  let q ← vertexAt s.mStormyWaves i (j - 1)
  let stormy ← assignY s.mStormyWaves i j
    (p.y * s.mParams.waveMomentum + q.y * (1 - s.mParams.waveMomentum))
  let p ← vertexAt stormy i j
  let stormy ← assignY stormy i j
    (p.y + W.ofSignedNoise p.x p.z W.t * s.mParams.perlinNoiseMagnitude)
  pure { s with mStormyWaves := stormy }

/-- The factor `pow((cos(x * M_PI / (mWidth >> 1)) + 1) * 0.5, mParams["calmWaveLevel"])` of
line 149. -/
def envelope (L : Libm α) (mWidth : Int) (calmWaveLevel x : α) : α :=
  L.pow ((L.cos (x * L.M_PI / ((mWidth >>> (1 : Nat) : Int) : α)) + 1) * 0.5) calmWaveLevel

/-- Line 149: `mCalmWaves[i][j].y = mStormyWaves[i][j].y * pow(...)`. -/
def calmDown (W : World σ α) (i j : Nat) (s : UnknownPleasures σ α) :
    Except Fault (UnknownPleasures σ α) := do
  let p ← vertexAt s.mStormyWaves i j
  let calm ← assignY s.mCalmWaves i j
    (p.y * envelope W.libm s.mWidth s.mParams.calmWaveLevel p.x)
  pure { s with mCalmWaves := calm }

/-- The body of the inner loop (lines 127-149) at column `j` of row `i`. -/
def columnStep (W : World σ α) (i j : Nat) (s : UnknownPleasures σ α) :
    Except Fault (UnknownPleasures σ α) := do
  let s ← if j = 0 then leftEdge W i j s else shiftRight W i j s
  calmDown W i j s

/-- The inner loop `for (int j = ...; j >= 0; --j)` with the columns `n-1, ..., 0` of row `i`
still to do. -/
def columnsFrom (W : World σ α) (i : Nat) : Nat → UnknownPleasures σ α →
    Except Fault (UnknownPleasures σ α)
  | 0, s => .ok s
  | j + 1, s => do
    let s ← columnStep W i j s
    columnsFrom W i j s

/-- The body of the outer loop (lines 125-150): every column of row `i`, from
`mStormyWaves[i].size() - 1` down to `0`. -/
def updateRow (W : World σ α) (i : Nat) (s : UnknownPleasures σ α) :
    Except Fault (UnknownPleasures σ α) := do
  let wave ← readAt s.mStormyWaves i
  columnsFrom W i wave.length s

/-- The outer loop `for (int i = 0; i < mStormyWaves.size(); ++i)` with `n` rows left from
row `i` on. -/
def rowsFrom (W : World σ α) : Nat → Nat → UnknownPleasures σ α →
    Except Fault (UnknownPleasures σ α)
  | 0, _, s => .ok s
  | n + 1, i, s => do
    let s ← updateRow W i s
    rowsFrom W n (i + 1) s

/-- The second loop of `update` on the whole object. -/
def propagate (W : World σ α) (s : UnknownPleasures σ α) : Except Fault (UnknownPleasures σ α) :=
  rowsFrom W s.mStormyWaves.length 0 s

/-- `UnknownPleasures::update`. `fuel` is the budget of each rejection loop. -/
def update [FloorSemiring α] (W : World σ α) (fuel : Nat) (s : UnknownPleasures σ α) :
    Except Fault (UnknownPleasures σ α) := do
  let s ← waveOccurrence W fuel s
  propagate W s

/-- Consecutive calls of `update`, one per element of `ticks`: each tick has its own world (its
elapsed time, its draws) and rejection budget. -/
def updates [FloorSemiring α] : List (World σ α × Nat) → UnknownPleasures σ α →
    Except Fault (UnknownPleasures σ α)
  | [], s => .ok s
  | tick :: ticks, s => do
    let s ← update tick.1 tick.2 s
    updates ticks s

end Propagation

/-! ## Descriptions of the result of an update

These definitions are not translations of the source: they describe what the loops of
`update` compute and are compared with them in the theorems below. -/

section Descriptions
variable {σ α : Type} [LinearOrderedField α]

/-- The value `update` gives the left edge: the uniform sample, plus the front of the pending
wave queue when there is one. -/
def edgeValue (u : α) (waveQueue : List α) : α :=
  match waveQueue with
  | [] => u
  | front :: _ => u + front

/-- The uniform sample `update` draws for the left edge when the engine is in state `e`. -/
def edgeSample (W : World σ α) (P : Params α) (e : σ) : α :=
  (W.rng.uniform P.smallWaveHeightMean P.smallWaveHeightStd e).1

/-- The vertex at a column `j > 0` after smoothing and noise, from the vertex `p` at `j` and the
vertex `q` at `j - 1` of the previous tick. -/
def smoothed (W : World σ α) (P : Params α) (p q : Vec3 α) : Vec3 α :=
  { p with y := p.y * P.waveMomentum + q.y * (1 - P.waveMomentum)
              + W.ofSignedNoise p.x p.z W.t * P.perlinNoiseMagnitude }

/-- A double-buffered row update: the new stormy polyline is built as a fresh buffer from the
snapshot `old` of the previous tick; column `0` gets `edge`, column `j > 0` is computed from
`old[j]` and `old[j-1]`. -/
def doubleBuffered (W : World σ α) (P : Params α) (edge : α) (old : ofPolyline α) :
    ofPolyline α :=
  match old with
  | [] => []
  | p :: rest => { p with y := edge } :: List.zipWith (smoothed W P) rest (p :: rest)

/-- The calm polyline derived from a stormy one: `y` is damped by the envelope at the stormy
vertex's `x`, the other coordinates of the calm vertices stay. -/
def damped (L : Libm α) (mWidth : Int) (calmWaveLevel : α) (stormy calm : ofPolyline α) :
    ofPolyline α :=
  List.zipWith (fun p c => { c with y := p.y * envelope L mWidth calmWaveLevel p.x }) stormy calm

/-- The stormy polyline of a row after its update, from the polyline `old`, the engine state
`e` and the pending wave queue at the start of the row's update. -/
def newStormy (W : World σ α) (P : Params α) (e : σ) (waveQueue : List α) (old : ofPolyline α) :
    ofPolyline α :=
  doubleBuffered W P (edgeValue (edgeSample W P e) waveQueue) old

/-- The calm polyline of a row after its update. -/
def newCalm (W : World σ α) (P : Params α) (mWidth : Int) (e : σ) (waveQueue : List α)
    (old calm : ofPolyline α) : ofPolyline α :=
  damped W.libm mWidth P.calmWaveLevel (newStormy W P e waveQueue old) calm

/-- The row-length invariant of the field: as many calm polylines and wave queues as stormy
polylines, and each calm polyline as long as the stormy polyline of its row. -/
def WellFormed (s : UnknownPleasures σ α) : Prop :=
  s.mCalmWaves.map List.length = s.mStormyWaves.map List.length ∧
    s.mWaveQueues.length = s.mStormyWaves.length

/-- The engine state after the update of a row whose stormy polyline is `old`: one uniform
draw when the row has a column, none otherwise. -/
def engineAfterRow (W : World σ α) (P : Params α) (old : ofPolyline α) (e : σ) : σ :=
  if old.length = 0 then e else (W.rng.uniform P.smallWaveHeightMean P.smallWaveHeightStd e).2

/-- The wave queue of a row after its update: the front is popped when the row has a column. -/
def queueAfterRow (old : ofPolyline α) (waveQueue : List α) : List α :=
  if old.length = 0 then waveQueue else waveQueue.tail

/-- The rows of the field after the second loop of `update`, row by row with the engine state
threaded through: stormy polylines, calm polylines, wave queues and the final engine state. -/
def rowsAfter (W : World σ α) (P : Params α) (mWidth : Int) :
    List (ofPolyline α) → List (ofPolyline α) → List (List α) → σ →
      List (ofPolyline α) × List (ofPolyline α) × List (List α) × σ
  | old :: stormy, calm :: calms, waveQueue :: queues, e =>
    let r := rowsAfter W P mWidth stormy calms queues (engineAfterRow W P old e)
    (newStormy W P e waveQueue old :: r.1, newCalm W P mWidth e waveQueue old calm :: r.2.1,
      queueAfterRow old waveQueue :: r.2.2.1, r.2.2.2)
  | _, _, _, e => ([], [], [], e)

/-- The wave occurrence loop draws `false` for every queue: no wave occurs on this tick. -/
def noWave (R : Rng σ α) (P : Params α) : List (List α) → σ → Bool
  | [], _ => true
  | _ :: rest, e =>
    !(R.bernoulli P.waveOccurProb e).1 && noWave R P rest (R.bernoulli P.waveOccurProb e).2

/-- The engine state after a wave occurrence loop in which no wave occurs: one Bernoulli draw
per queue. -/
def engineAfterNoWave (R : Rng σ α) (P : Params α) : List (List α) → σ → σ
  | [], e => e
  | _ :: rest, e => engineAfterNoWave R P rest (R.bernoulli P.waveOccurProb e).2

/-- No wave occurs on any of the consecutive updates `ticks` started from `s`. -/
def NoWaveRun [FloorSemiring α] : List (World σ α × Nat) → UnknownPleasures σ α → Prop
  | [], _ => True
  | tick :: ticks, s =>
    noWave tick.1.rng s.mParams s.mWaveQueues s.mEngine = true ∧
      ∀ s1, update tick.1 tick.2 s = .ok s1 → NoWaveRun ticks s1

/-- The generator as a sequence of draws: draw number `k` (from 0) of the distribution `dist`
started in engine state `e`, with the engine state it leaves. -/
def drawSeq (dist : σ → α × σ) (e : σ) : Nat → α × σ
  | 0 => dist e
  | k + 1 => dist (drawSeq dist e k).2

/-- The stormy height at column `j` of row `i`, when the field has such a column. -/
def heightAt (s : UnknownPleasures σ α) (i j : Nat) : Option α :=
  ((s.mStormyWaves[i]?).bind fun wave => wave[j]?).map Vec3.y

/-- The engine state in which the second loop of `update`, started in state `e`, reaches row
`i`: one uniform draw has been made for every earlier row that has a column. -/
def engineAtRow (W : World σ α) (P : Params α) : List (ofPolyline α) → Nat → σ → σ
  | _, 0, e => e
  | [], _ + 1, e => e
  | old :: rows, i + 1, e => engineAtRow W P rows i (engineAfterRow W P old e)

/-- No wave occurs for row `i` in the wave occurrence loop of an `update` of `s`: the loop gets
through the queues before row `i` and its Bernoulli draw for row `i` is `false`. -/
def RowQuiet [FloorSemiring α] (W : World σ α) (fuel : Nat) (s : UnknownPleasures σ α)
    (i : Nat) : Prop :=
  ∃ r, occurAll W.rng s.mParams fuel (s.mWaveQueues.take i) s.mEngine = .ok r ∧
    (W.rng.bernoulli s.mParams.waveOccurProb r.2).1 = false

/-- No wave occurs for row `i` on any of the consecutive updates `ticks` started from `s`. -/
def RowQuietRun [FloorSemiring α] (i : Nat) :
    List (World σ α × Nat) → UnknownPleasures σ α → Prop
  | [], _ => True
  | tick :: ticks, s =>
    RowQuiet tick.1 tick.2 s i ∧
      ∀ s1, update tick.1 tick.2 s = .ok s1 → RowQuietRun i ticks s1

end Descriptions

/-- The libm functions are the exact real ones: `cos` is the real cosine, `pow` the real power
function and `M_PI` is `π`. -/
def IsExact (L : Libm ℝ) : Prop :=
  L.cos = Real.cos ∧ L.pow = (fun x y => x ^ y) ∧ L.M_PI = Real.pi

/-! ## Concrete fields and worlds -/

section Examples

/-- A world over `Unit` engine states in which no wave ever occurs, every normal draw is `w`,
every uniform draw is `u`, the noise is constantly `noise` and the elapsed time is `t`. -/
def quietWorld {α : Type} (L : Libm α) (w u noise t : α) : World Unit α where
  libm := L
  rng := { bernoulli := fun _ e => (false, e), normal := fun _ _ e => (w, e),
           uniform := fun _ _ e => (u, e) }
  ofSignedNoise := fun _ _ _ => noise
  t := t

/-- A world over `Unit` engine states in which a wave occurs for every row on every tick,
every normal draw is `w`, every uniform draw is `u`, the noise is constantly `noise` and the
elapsed time is `t`. -/
def busyWorld {α : Type} (L : Libm α) (w u noise t : α) : World Unit α where
  libm := L
  rng := { bernoulli := fun _ e => (true, e), normal := fun _ _ e => (w, e),
           uniform := fun _ _ e => (u, e) }
  ofSignedNoise := fun _ _ _ => noise
  t := t

/-- A rational stand-in for libm (`cos x = 1 - x`, `pow x y = x * y`, `M_PI = 3`), for running
the definitions. -/
def toyLibm : Libm ℚ where
  cos := fun x => 1 - x
  pow := fun x y => x * y
  M_PI := 3

/-- A field of one row with the two polylines `stormy` and `calm` and the queue `waveQueue`. -/
def oneRow {α : Type} (mWidth : Int) (P : Params α) (stormy calm : ofPolyline α)
    (waveQueue : List α) : UnknownPleasures Unit α where
  mWidth := mWidth
  mDepth := 2
  mParams := P
  mStormyWaves := [stormy]
  mCalmWaves := [calm]
  mWaveQueues := [waveQueue]
  mEngine := ()

/-- A three-column row of the default configuration with one pending wave sample. -/
def sampleField : UnknownPleasures Unit ℚ :=
  oneRow 4 defaultParams [⟨-2, 1, 0⟩, ⟨-1, 2, 0⟩, ⟨0, 3, 0⟩] [⟨-2, 0, 0⟩, ⟨-1, 0, 0⟩, ⟨0, 0, 0⟩] [5]

/-- The world the sample field is run in. -/
def sampleWorld : World Unit ℚ := quietWorld toyLibm 0 7 1 0

/-- A one-column row of the default configuration with an empty queue. -/
def freshField : UnknownPleasures Unit ℚ :=
  oneRow 2 defaultParams [⟨-1, 0, 0⟩] [⟨-1, 0, 0⟩] []

/-- The fresh field one tick after a wave of width 3 and height 3 occurred: the first sample of
the wave has been injected, six are pending. -/
def pendingField : UnknownPleasures Unit ℚ :=
  oneRow 2 defaultParams [⟨-1, 0, 0⟩] [⟨-1, 0, 0⟩] [1, 2, 3, 3, 2, 1]

/-- The sample field with `waveMomentum` set to 0 and an empty queue. -/
def shiftField : UnknownPleasures Unit ℚ :=
  oneRow 4 { (defaultParams : Params ℚ) with waveMomentum := 0 }
    [⟨-2, 1, 0⟩, ⟨-1, 2, 0⟩, ⟨0, 3, 0⟩] [⟨-2, 0, 0⟩, ⟨-1, 0, 0⟩, ⟨0, 0, 0⟩] []

/-- A field of odd width 3 (so `mWidth >> 1 = 1`) with `calmWaveLevel = 1`: one row whose only
column is the left edge `x = -1`. -/
def oddField (α : Type) [LinearOrderedField α] : UnknownPleasures Unit α :=
  oneRow 3 { (defaultParams : Params α) with calmWaveLevel := 1 } [⟨-1, 0, 0⟩] [⟨-1, 0, 0⟩] []

/-- A field of width 2 with `calmWaveLevel = 0`: one row whose only column is the left edge
`x = -1 = -(mWidth >> 1)`. -/
def flatField (α : Type) [LinearOrderedField α] : UnknownPleasures Unit α :=
  oneRow 2 { (defaultParams : Params α) with calmWaveLevel := 0 } [⟨-1, 0, 0⟩] [⟨-1, 0, 0⟩] []

/-- The field `setup` builds for width 2 and depth 2: the single row `z = -1` with the columns
`x = -1, -0.5, 0, 0.5`. -/
def centerField (α : Type) [LinearOrderedField α] : UnknownPleasures Unit α :=
  oneRow 2 defaultParams [⟨-1, 0, -1⟩, ⟨-0.5, 0, -1⟩, ⟨0, 0, -1⟩, ⟨0.5, 0, -1⟩]
    [⟨-1, 0, -1⟩, ⟨-0.5, 0, -1⟩, ⟨0, 0, -1⟩, ⟨0.5, 0, -1⟩] []

/-- The field `setup` builds for width 2 and depth 2, one tick later in a quiet world whose
uniform draw is 1. -/
def centerFieldNext : UnknownPleasures Unit ℚ :=
  oneRow 2 defaultParams [⟨-1, 1, -1⟩, ⟨-0.5, 0, -1⟩, ⟨0, 0, -1⟩, ⟨0.5, 0, -1⟩]
    [⟨-1, 15 / 2, -1⟩, ⟨-0.5, 0, -1⟩, ⟨0, 0, -1⟩, ⟨0.5, 0, -1⟩] []

/-- The sample field with `waveMomentum = 1` and `perlinNoiseMagnitude = 0`. -/
def stallField : UnknownPleasures Unit ℚ :=
  oneRow 4 { (defaultParams : Params ℚ) with waveMomentum := 1, perlinNoiseMagnitude := 0 }
    [⟨-2, 1, 0⟩, ⟨-1, 2, 0⟩, ⟨0, 3, 0⟩] [⟨-2, 0, 0⟩, ⟨-1, 0, 0⟩, ⟨0, 0, 0⟩] [5]

/-- A generator over a counter: the normal draw in state `e` is `mean + std * e`, the
Bernoulli draw is always `true`, the uniform draw is the lower bound. -/
def countingRng : Rng Nat ℚ where
  bernoulli := fun _ e => (true, e + 1)
  normal := fun mean std e => (mean + std * (e : ℚ), e + 1)
  uniform := fun a _ e => (a, e + 1)

/-- The field `setup` builds for width 3 and depth 2: the single row `z = -1` with the four
columns `x = -1, -0.5, 0, 0.5`. -/
def oddSetupField : UnknownPleasures Unit ℚ :=
  oneRow 3 defaultParams [⟨-1, 0, -1⟩, ⟨-0.5, 0, -1⟩, ⟨0, 0, -1⟩, ⟨0.5, 0, -1⟩]
    [⟨-1, 0, -1⟩, ⟨-0.5, 0, -1⟩, ⟨0, 0, -1⟩, ⟨0.5, 0, -1⟩] []

/-- The sample field with `waveMomentum = 0`, `perlinNoiseMagnitude = 0`, `calmWaveLevel = 0`
and the pending queue `[5, 6]`. -/
def pureShiftField : UnknownPleasures Unit ℚ :=
  oneRow 4
    { (defaultParams : Params ℚ) with
      waveMomentum := 0, perlinNoiseMagnitude := 0, calmWaveLevel := 0 }
    [⟨-2, 1, 0⟩, ⟨-1, 2, 0⟩, ⟨0, 3, 0⟩] [⟨-2, 0, 0⟩, ⟨-1, 0, 0⟩, ⟨0, 0, 0⟩] [5, 6]

/-- The pure-shift field one update later, in the sample world (uniform draw 7). -/
def pureShiftField1 : UnknownPleasures Unit ℚ :=
  oneRow 4
    { (defaultParams : Params ℚ) with
      waveMomentum := 0, perlinNoiseMagnitude := 0, calmWaveLevel := 0 }
    [⟨-2, 12, 0⟩, ⟨-1, 1, 0⟩, ⟨0, 2, 0⟩] [⟨-2, 0, 0⟩, ⟨-1, 0, 0⟩, ⟨0, 0, 0⟩] [6]

/-- The pure-shift field two updates later, in the sample world. -/
def pureShiftField2 : UnknownPleasures Unit ℚ :=
  oneRow 4
    { (defaultParams : Params ℚ) with
      waveMomentum := 0, perlinNoiseMagnitude := 0, calmWaveLevel := 0 }
    [⟨-2, 13, 0⟩, ⟨-1, 12, 0⟩, ⟨0, 1, 0⟩] [⟨-2, 0, 0⟩, ⟨-1, 0, 0⟩, ⟨0, 0, 0⟩] []

end Examples

/-! # Theorems -/

/-! ## Lemmas on container access -/

section Access

variable {β α : Type}

theorem readAt_of_getElem? {v : List β} {i : Nat} {b : β} (h : v[i]? = some b) :
    readAt v i = .ok b := by
  simp [readAt, h]

theorem readAt_of_le {v : List β} {i : Nat} (h : v.length ≤ i) :
    readAt v i = .error .outOfBounds := by
  simp [readAt, List.getElem?_eq_none h]

theorem writeAt_of_lt {v : List β} {i : Nat} (b : β) (h : i < v.length) :
    writeAt v i b = .ok (v.set i b) := by
  simp [writeAt, h]

theorem writeAt_of_getElem? {v : List β} {i : Nat} {a : β} (b : β) (h : v[i]? = some a) :
    writeAt v i b = .ok (v.set i b) := by
  obtain ⟨hi, -⟩ := List.getElem?_eq_some_iff.mp h
  exact writeAt_of_lt b hi

theorem vertexAt_of_getElem? {waves : List (ofPolyline α)} {i j : Nat} {wave : ofPolyline α}
    {p : Vec3 α} (hi : waves[i]? = some wave) (hj : wave[j]? = some p) :
    vertexAt waves i j = .ok p := by
  simp [vertexAt, readAt_of_getElem? hi, readAt_of_getElem? hj, bind, Except.bind]

theorem assignY_of_getElem? {waves : List (ofPolyline α)} {i j : Nat} {wave : ofPolyline α}
    {p : Vec3 α} (y : α) (hi : waves[i]? = some wave) (hj : wave[j]? = some p) :
    assignY waves i j y = .ok (waves.set i (wave.set j { p with y := y })) := by
  simp [assignY, readAt_of_getElem? hi, readAt_of_getElem? hj, writeAt_of_getElem? _ hi, bind,
    Except.bind]

theorem getElem?_set_self_of_getElem? {v : List β} {i : Nat} {a : β} (b : β)
    (h : v[i]? = some a) : (v.set i b)[i]? = some b := by
  obtain ⟨hi, -⟩ := List.getElem?_eq_some_iff.mp h
  simp [List.getElem?_set, hi]

end Access

/-! ## The double-buffered description of one row update -/

section RowSpec

variable {σ α : Type} [LinearOrderedField α]

theorem length_doubleBuffered (W : World σ α) (P : Params α) (edge : α) (old : ofPolyline α) :
    (doubleBuffered W P edge old).length = old.length := by
  cases old with
  | nil => rfl
  | cons p rest => simp [doubleBuffered]

theorem length_damped (L : Libm α) (mWidth : Int) (c : α) (stormy calm : ofPolyline α)
    (h : calm.length = stormy.length) : (damped L mWidth c stormy calm).length = stormy.length := by
  simp [damped, h]

theorem getElem?_doubleBuffered_zero (W : World σ α) (P : Params α) (edge : α)
    (old : ofPolyline α) (p : Vec3 α) (h : old[0]? = some p) :
    (doubleBuffered W P edge old)[0]? = some { p with y := edge } := by
  cases old with
  | nil => simp at h
  | cons a rest =>
    simp only [List.getElem?_cons_zero, Option.some.injEq] at h
    simp [doubleBuffered, h]

theorem getElem?_doubleBuffered_succ (W : World σ α) (P : Params α) (edge : α)
    (old : ofPolyline α) (j : Nat) (p q : Vec3 α) (hp : old[j + 1]? = some p)
    (hq : old[j]? = some q) :
    (doubleBuffered W P edge old)[j + 1]? = some (smoothed W P p q) := by
  cases old with
  | nil => simp at hq
  | cons a rest =>
    simp only [List.getElem?_cons_succ] at hp
    simp [doubleBuffered, List.getElem?_zipWith, hp, hq]

theorem getElem?_damped (L : Libm α) (mWidth : Int) (c : α) (stormy calm : ofPolyline α)
    (j : Nat) (p v : Vec3 α) (hp : stormy[j]? = some p) (hv : calm[j]? = some v) :
    (damped L mWidth c stormy calm)[j]? = some { v with y := p.y * envelope L mWidth c p.x } := by
  simp [damped, List.getElem?_zipWith, hp, hv]

/-- Overwriting position `k` of a buffer that is old below `k + 1` and new from `k + 1` on with
the new value yields the buffer that is old below `k` and new from `k` on. -/
theorem set_take_append_drop {β : Type} (old new : List β) (k : Nat) (b : β)
    (hk : k < old.length) (hb : new[k]? = some b) :
    (old.take (k + 1) ++ new.drop (k + 1)).set k b = old.take k ++ new.drop k := by
  induction old generalizing new k with
  | nil => simp at hk
  | cons a as ih =>
    cases new with
    | nil => simp at hb
    | cons c cs =>
      cases k with
      | zero =>
        simp only [List.getElem?_cons_zero, Option.some.injEq] at hb
        simp [hb]
      | succ k =>
        simp only [List.getElem?_cons_succ] at hb
        simp only [List.length_cons, Nat.add_lt_add_iff_right] at hk
        simpa using ih cs k hk hb

theorem getElem?_take_append_drop_lt {β : Type} (old new : List β) (k j : Nat)
    (hj : j < k) (hk : k ≤ old.length) :
    (old.take k ++ new.drop k)[j]? = old[j]? := by
  rw [List.getElem?_append_left (by simp; omega)]
  simp [List.getElem?_take, hj]

theorem getElem?_take_append_drop_ge {β : Type} (old new : List β) (k j : Nat)
    (hj : k ≤ j) (hk : k ≤ old.length) :
    (old.take k ++ new.drop k)[j]? = new[j]? := by
  rw [List.getElem?_append_right (by simp; omega)]
  simp [List.getElem?_drop, Nat.min_eq_left hk]
  congr 1; omega

end RowSpec

/-! ## One column step on a well-formed row -/

section ColumnStep

variable {σ α : Type} [LinearOrderedField α]

theorem set_of_getElem?_self {β : Type} {v : List β} {i : Nat} {a : β} (h : v[i]? = some a) :
    v.set i a = v := by
  induction v generalizing i with
  | nil => simp at h
  | cons b bs ih =>
    cases i with
    | zero =>
      simp only [List.getElem?_cons_zero, Option.some.injEq] at h
      simp [h]
    | succ i =>
      simp only [List.getElem?_cons_succ] at h
      simp [ih h]

theorem shiftRight_ok (W : World σ α) (i j : Nat) (s : UnknownPleasures σ α)
    (cur : ofPolyline α) (p q : Vec3 α) (hS : s.mStormyWaves[i]? = some cur)
    (hp : cur[j]? = some p) (hq : cur[j - 1]? = some q) :
    shiftRight W i j s
      = .ok { s with
          mStormyWaves := s.mStormyWaves.set i (cur.set j (smoothed W s.mParams p q)) } := by
  have h1 := assignY_of_getElem? (p.y * s.mParams.waveMomentum + q.y * (1 - s.mParams.waveMomentum))
    hS hp
  have hS1 := getElem?_set_self_of_getElem?
    (cur.set j { p with y := p.y * s.mParams.waveMomentum + q.y * (1 - s.mParams.waveMomentum) }) hS
  have hp1 := getElem?_set_self_of_getElem?
    ({ p with y := p.y * s.mParams.waveMomentum + q.y * (1 - s.mParams.waveMomentum) } : Vec3 α) hp
  simp only [shiftRight, vertexAt_of_getElem? hS hp, vertexAt_of_getElem? hS hq, h1,
    vertexAt_of_getElem? hS1 hp1, assignY_of_getElem? _ hS1 hp1, bind, Except.bind, pure,
    Except.pure, List.set_set, smoothed]

theorem calmDown_ok (W : World σ α) (i j : Nat) (s : UnknownPleasures σ α)
    (cur calm : ofPolyline α) (p c : Vec3 α) (hS : s.mStormyWaves[i]? = some cur)
    (hp : cur[j]? = some p) (hC : s.mCalmWaves[i]? = some calm) (hc : calm[j]? = some c) :
    calmDown W i j s
      = .ok { s with
          mCalmWaves := s.mCalmWaves.set i (calm.set j
            { c with y := p.y * envelope W.libm s.mWidth s.mParams.calmWaveLevel p.x }) } := by
  simp only [calmDown, vertexAt_of_getElem? hS hp, assignY_of_getElem? _ hC hc, bind, Except.bind,
    pure, Except.pure]

theorem leftEdge_ok (W : World σ α) (i j : Nat) (s : UnknownPleasures σ α)
    (cur : ofPolyline α) (p : Vec3 α) (waveQueue : List α)
    (hS : s.mStormyWaves[i]? = some cur) (hp : cur[j]? = some p)
    (hQ : s.mWaveQueues[i]? = some waveQueue) :
    leftEdge W i j s
      = .ok { s with
          mStormyWaves := s.mStormyWaves.set i (cur.set j
            { p with y := edgeValue (edgeSample W s.mParams s.mEngine) waveQueue })
          mWaveQueues := s.mWaveQueues.set i waveQueue.tail
          mEngine := (W.rng.uniform s.mParams.smallWaveHeightMean
                s.mParams.smallWaveHeightStd s.mEngine).2 } := by
  have hS1 := getElem?_set_self_of_getElem?
    (cur.set j { p with y := (W.rng.uniform s.mParams.smallWaveHeightMean
                s.mParams.smallWaveHeightStd s.mEngine).1 }) hS
  have hp1 := getElem?_set_self_of_getElem?
    ({ p with y := (W.rng.uniform s.mParams.smallWaveHeightMean
                s.mParams.smallWaveHeightStd s.mEngine).1 } : Vec3 α) hp
  cases waveQueue with
  | nil =>
    simp only [leftEdge, assignY_of_getElem? _ hS hp, readAt_of_getElem? hQ, bind, Except.bind,
      pure, Except.pure, edgeValue, edgeSample, List.tail_nil, set_of_getElem?_self hQ]
  | cons front rest =>
    simp only [leftEdge, assignY_of_getElem? _ hS hp, readAt_of_getElem? hQ, bind, Except.bind,
      pure, Except.pure, edgeValue, edgeSample, List.tail_cons, vertexAt_of_getElem? hS1 hp1,
      assignY_of_getElem? _ hS1 hp1, writeAt_of_getElem? _ hQ, List.set_set]

end ColumnStep

/-! ## The in-place descending loop computes the double-buffered row -/

section RowLoop

variable {σ α : Type} [LinearOrderedField α]

theorem columnStep_ok (W : World σ α) (i k : Nat) (s : UnknownPleasures σ α)
    (old calm : ofPolyline α) (waveQueue : List α)
    (hlen : calm.length = old.length) (hk : k < old.length)
    (hS : s.mStormyWaves[i]? = some (old.take (k + 1)
      ++ (newStormy W s.mParams s.mEngine waveQueue old).drop (k + 1)))
    (hC : s.mCalmWaves[i]? = some (calm.take (k + 1)
      ++ (newCalm W s.mParams s.mWidth s.mEngine waveQueue old calm).drop (k + 1)))
    (hQ : s.mWaveQueues[i]? = some waveQueue) :
    columnStep W i k s
      = .ok { s with
          mStormyWaves := s.mStormyWaves.set i
            (old.take k ++ (newStormy W s.mParams s.mEngine waveQueue old).drop k)
          mCalmWaves := s.mCalmWaves.set i
            (calm.take k ++ (newCalm W s.mParams s.mWidth s.mEngine waveQueue old calm).drop k)
          mWaveQueues := if k = 0 then s.mWaveQueues.set i waveQueue.tail else s.mWaveQueues
          mEngine := if k = 0 then (W.rng.uniform s.mParams.smallWaveHeightMean
            s.mParams.smallWaveHeightStd s.mEngine).2 else s.mEngine } := by
  obtain ⟨p, hp⟩ : ∃ p, old[k]? = some p := ⟨old[k], List.getElem?_eq_getElem hk⟩
  obtain ⟨c, hc⟩ : ∃ c, calm[k]? = some c :=
    ⟨calm[k], List.getElem?_eq_getElem (by omega)⟩
  have hcurp := (getElem?_take_append_drop_lt old
    (newStormy W s.mParams s.mEngine waveQueue old) (k + 1) k (by omega) (by omega)).trans hp
  have hcalc := (getElem?_take_append_drop_lt calm
    (newCalm W s.mParams s.mWidth s.mEngine waveQueue old calm) (k + 1) k (by omega)
    (by omega)).trans hc
  -- damping the column once the stormy row has its double-buffered value at `k`
  have key : ∀ v : Vec3 α, (newStormy W s.mParams s.mEngine waveQueue old)[k]? = some v →
      ∀ (Q : List (List α)) (e : σ),
      calmDown W i k { s with
          mStormyWaves := s.mStormyWaves.set i
            (old.take k ++ (newStormy W s.mParams s.mEngine waveQueue old).drop k)
          mWaveQueues := Q
          mEngine := e }
        = .ok { s with
          mStormyWaves := s.mStormyWaves.set i
            (old.take k ++ (newStormy W s.mParams s.mEngine waveQueue old).drop k)
          mCalmWaves := s.mCalmWaves.set i
            (calm.take k ++ (newCalm W s.mParams s.mWidth s.mEngine waveQueue old calm).drop k)
          mWaveQueues := Q
          mEngine := e } := by
    intro v hv Q e
    have hv1 := (getElem?_take_append_drop_ge old
      (newStormy W s.mParams s.mEngine waveQueue old) k k (le_refl k) (by omega)).trans hv
    rw [calmDown_ok W i k
      { s with
        mStormyWaves := s.mStormyWaves.set i
          (old.take k ++ (newStormy W s.mParams s.mEngine waveQueue old).drop k)
        mWaveQueues := Q
        mEngine := e } _ _ v c (getElem?_set_self_of_getElem? _ hS) hv1 hC hcalc]
    simp only
    have hd : (newCalm W s.mParams s.mWidth s.mEngine waveQueue old calm)[k]? = some _ :=
      getElem?_damped W.libm s.mWidth s.mParams.calmWaveLevel _ calm k v c hv hc
    rw [set_take_append_drop calm _ k _ (by omega) hd]
  cases k with
  | zero =>
    have hv : (newStormy W s.mParams s.mEngine waveQueue old)[0]? = some _ :=
      getElem?_doubleBuffered_zero W s.mParams
        (edgeValue (edgeSample W s.mParams s.mEngine) waveQueue) old p hp
    simp only [columnStep, if_true, leftEdge_ok W i 0 s _ p waveQueue hS hcurp hQ, bind,
      Except.bind]
    rw [set_take_append_drop old _ 0 _ hk hv]
    exact key _ hv _ _
  | succ k =>
    obtain ⟨q, hq⟩ : ∃ q, old[k]? = some q := ⟨old[k], List.getElem?_eq_getElem (by omega)⟩
    have hcurq := (getElem?_take_append_drop_lt old
      (newStormy W s.mParams s.mEngine waveQueue old) (k + 2) k (by omega) (by omega)).trans hq
    have hv : (newStormy W s.mParams s.mEngine waveQueue old)[k + 1]? = some _ :=
      getElem?_doubleBuffered_succ W s.mParams
        (edgeValue (edgeSample W s.mParams s.mEngine) waveQueue) old k p q hp hq
    simp only [columnStep, Nat.succ_ne_zero, if_false,
      shiftRight_ok W i (k + 1) s _ p q hS hcurp hcurq, bind, Except.bind]
    rw [set_take_append_drop old _ (k + 1) _ hk hv]
    exact key _ hv _ _

end RowLoop

section RowLoop2

variable {σ α : Type} [LinearOrderedField α]

theorem columnsFrom_ok (W : World σ α) (i : Nat) (old calm : ofPolyline α) (waveQueue : List α)
    (hlen : calm.length = old.length) (k : Nat) :
    ∀ s : UnknownPleasures σ α, k < old.length →
      s.mStormyWaves[i]? = some (old.take (k + 1)
        ++ (newStormy W s.mParams s.mEngine waveQueue old).drop (k + 1)) →
      s.mCalmWaves[i]? = some (calm.take (k + 1)
        ++ (newCalm W s.mParams s.mWidth s.mEngine waveQueue old calm).drop (k + 1)) →
      s.mWaveQueues[i]? = some waveQueue →
      columnsFrom W i (k + 1) s
        = .ok { s with
            mStormyWaves := s.mStormyWaves.set i (newStormy W s.mParams s.mEngine waveQueue old)
            mCalmWaves := s.mCalmWaves.set i
              (newCalm W s.mParams s.mWidth s.mEngine waveQueue old calm)
            mWaveQueues := s.mWaveQueues.set i waveQueue.tail
            mEngine := (W.rng.uniform s.mParams.smallWaveHeightMean
              s.mParams.smallWaveHeightStd s.mEngine).2 } := by
  induction k with
  | zero =>
    intro s hk hS hC hQ
    rw [columnsFrom, columnStep_ok W i 0 s old calm waveQueue hlen hk hS hC hQ]
    simp [columnsFrom, bind, Except.bind]
  | succ k ih =>
    intro s hk hS hC hQ
    rw [columnsFrom, columnStep_ok W i (k + 1) s old calm waveQueue hlen hk hS hC hQ]
    simp only [bind, Except.bind, Nat.succ_ne_zero, if_false]
    rw [ih]
    · simp only [List.set_set]
    · omega
    · exact getElem?_set_self_of_getElem? _ hS
    · exact getElem?_set_self_of_getElem? _ hC
    · exact hQ

/-- The inner loop on a row whose stormy polyline, calm polyline and queue exist and whose two
polylines have the same length: it never faults, the stormy polyline becomes the
double-buffered one, the calm polyline its damped image, and (when the row has a column) the
queue loses its front and the engine advances by one uniform draw. -/
theorem updateRow_ok (W : World σ α) (i : Nat) (s : UnknownPleasures σ α)
    (old calm : ofPolyline α) (waveQueue : List α)
    (hS : s.mStormyWaves[i]? = some old) (hC : s.mCalmWaves[i]? = some calm)
    (hQ : s.mWaveQueues[i]? = some waveQueue) (hlen : calm.length = old.length) :
    updateRow W i s
      = .ok { s with
          mStormyWaves := s.mStormyWaves.set i (newStormy W s.mParams s.mEngine waveQueue old)
          mCalmWaves := s.mCalmWaves.set i
            (newCalm W s.mParams s.mWidth s.mEngine waveQueue old calm)
          mWaveQueues :=
            if old.length = 0 then s.mWaveQueues else s.mWaveQueues.set i waveQueue.tail
          mEngine :=
            if old.length = 0 then s.mEngine
            else (W.rng.uniform s.mParams.smallWaveHeightMean
              s.mParams.smallWaveHeightStd s.mEngine).2 } := by
  simp only [updateRow, readAt_of_getElem? hS, bind, Except.bind]
  cases hn : old.length with
  | zero =>
    have ho : old = [] := List.length_eq_zero.mp hn
    have hc : calm = [] := List.length_eq_zero.mp (hlen.trans hn)
    subst ho; subst hc
    simp [columnsFrom, newStormy, newCalm, doubleBuffered, damped, set_of_getElem?_self hS,
      set_of_getElem?_self hC]
  | succ n =>
    have h1 : old.take (n + 1) = old := List.take_of_length_le (by omega)
    have h2 : calm.take (n + 1) = calm := List.take_of_length_le (by omega)
    have h3 : (newStormy W s.mParams s.mEngine waveQueue old).drop (n + 1) = [] :=
      List.drop_of_length_le (by simp [newStormy, length_doubleBuffered, hn])
    have h4 : (newCalm W s.mParams s.mWidth s.mEngine waveQueue old calm).drop (n + 1) = [] :=
      List.drop_of_length_le (by
        simp [newCalm, newStormy, length_damped, length_doubleBuffered, hlen, hn])
    rw [columnsFrom_ok W i old calm waveQueue hlen n s (by omega)
      (by rw [h1, h3, List.append_nil]; exact hS)
      (by rw [h2, h4, List.append_nil]; exact hC) hQ]
    simp

end RowLoop2

/-! ## The second loop of `update` on a well-formed field -/

section Field

variable {σ α : Type} [LinearOrderedField α]

theorem getElem?_append_cons_length {β : Type} (done rest : List β) (a : β) :
    (done ++ a :: rest)[done.length]? = some a := by
  induction done with
  | nil => simp
  | cons d ds ih => simpa using ih

theorem set_append_cons_length {β : Type} (done rest : List β) (a b : β) :
    (done ++ a :: rest).set done.length b = done ++ b :: rest := by
  induction done with
  | nil => simp
  | cons d ds ih => simp [ih]

theorem rowsFrom_ok (W : World σ α) (restS : List (ofPolyline α)) :
    ∀ (restC : List (ofPolyline α)) (restQ : List (List α))
      (doneS doneC : List (ofPolyline α)) (doneQ : List (List α)) (s : UnknownPleasures σ α),
      s.mStormyWaves = doneS ++ restS → s.mCalmWaves = doneC ++ restC →
      s.mWaveQueues = doneQ ++ restQ →
      doneC.length = doneS.length → doneQ.length = doneS.length →
      restC.map List.length = restS.map List.length → restQ.length = restS.length →
      rowsFrom W restS.length doneS.length s
        = .ok { s with
            mStormyWaves := doneS ++ (rowsAfter W s.mParams s.mWidth restS restC restQ s.mEngine).1
            mCalmWaves := doneC ++ (rowsAfter W s.mParams s.mWidth restS restC restQ s.mEngine).2.1
            mWaveQueues :=
              doneQ ++ (rowsAfter W s.mParams s.mWidth restS restC restQ s.mEngine).2.2.1
            mEngine := (rowsAfter W s.mParams s.mWidth restS restC restQ s.mEngine).2.2.2 } := by
  induction restS with
  | nil =>
    intro restC restQ doneS doneC doneQ s hS hC hQ _ _ hcs hqs
    have hc : restC = [] := by simpa using hcs
    have hq : restQ = [] := by simpa using hqs
    subst hc; subst hq
    simp only [List.append_nil] at hS hC hQ
    simp [rowsFrom, rowsAfter, ← hS, ← hC, ← hQ]
  | cons old restS ih =>
    intro restC restQ doneS doneC doneQ s hS hC hQ hdc hdq hcs hqs
    cases restC with
    | nil => simp at hcs
    | cons calm restC =>
      cases restQ with
      | nil => simp at hqs
      | cons waveQueue restQ =>
        simp only [List.map_cons, List.cons.injEq] at hcs
        simp only [List.length_cons, Nat.add_right_cancel_iff] at hqs
        have hSi : s.mStormyWaves[doneS.length]? = some old := by
          rw [hS]; exact getElem?_append_cons_length _ _ _
        have hCi : s.mCalmWaves[doneS.length]? = some calm := by
          rw [hC, ← hdc]; exact getElem?_append_cons_length _ _ _
        have hQi : s.mWaveQueues[doneS.length]? = some waveQueue := by
          rw [hQ, ← hdq]; exact getElem?_append_cons_length _ _ _
        rw [List.length_cons, rowsFrom,
          updateRow_ok W doneS.length s old calm waveQueue hSi hCi hQi hcs.1]
        simp only [bind, Except.bind]
        have key := ih restC restQ
          (doneS ++ [newStormy W s.mParams s.mEngine waveQueue old])
          (doneC ++ [newCalm W s.mParams s.mWidth s.mEngine waveQueue old calm])
          (doneQ ++ [queueAfterRow old waveQueue])
          { s with
            mStormyWaves := s.mStormyWaves.set doneS.length
              (newStormy W s.mParams s.mEngine waveQueue old)
            mCalmWaves := s.mCalmWaves.set doneS.length
              (newCalm W s.mParams s.mWidth s.mEngine waveQueue old calm)
            mWaveQueues :=
              if old.length = 0 then s.mWaveQueues
              else s.mWaveQueues.set doneS.length waveQueue.tail
            mEngine :=
              if old.length = 0 then s.mEngine
              else (W.rng.uniform s.mParams.smallWaveHeightMean
                s.mParams.smallWaveHeightStd s.mEngine).2 }
          (by simp [hS, set_append_cons_length])
          (by
            simp only [hC, ← hdc, set_append_cons_length]
            simp)
          (by
            simp only [queueAfterRow]
            split
            · simp [hQ]
            · simp only [hQ, ← hdq, set_append_cons_length]
              simp)
          (by simp [hdc]) (by simp [hdq]) hcs.2 hqs
        simp only [List.length_append, List.length_singleton] at key
        rw [key]
        simp [rowsAfter, engineAfterRow]

/-- On a well-formed field the second loop of `update` never faults and yields the rows
`rowsAfter` describes. -/
theorem propagate_ok (W : World σ α) (s : UnknownPleasures σ α) (h : WellFormed s) :
    propagate W s
      = .ok { s with
          mStormyWaves :=
            (rowsAfter W s.mParams s.mWidth s.mStormyWaves s.mCalmWaves s.mWaveQueues s.mEngine).1
          mCalmWaves :=
            (rowsAfter W s.mParams s.mWidth s.mStormyWaves s.mCalmWaves s.mWaveQueues
              s.mEngine).2.1
          mWaveQueues :=
            (rowsAfter W s.mParams s.mWidth s.mStormyWaves s.mCalmWaves s.mWaveQueues
              s.mEngine).2.2.1
          mEngine :=
            (rowsAfter W s.mParams s.mWidth s.mStormyWaves s.mCalmWaves s.mWaveQueues
              s.mEngine).2.2.2 } := by
  have := rowsFrom_ok W s.mStormyWaves s.mCalmWaves s.mWaveQueues [] [] [] s rfl rfl rfl rfl rfl
    h.1 h.2
  simpa [propagate] using this

end Field

section FieldRows

variable {σ α : Type} [LinearOrderedField α]

/-- Row `i` of `rowsAfter`: the row's own update, started in some engine state. -/
theorem rowsAfter_getElem? (W : World σ α) (P : Params α) (mWidth : Int)
    (stormy : List (ofPolyline α)) :
    ∀ (calms : List (ofPolyline α)) (queues : List (List α)) (e : σ) (i : Nat)
      (old calm : ofPolyline α) (waveQueue : List α),
      stormy[i]? = some old → calms[i]? = some calm → queues[i]? = some waveQueue →
      ∃ e1 : σ,
        (rowsAfter W P mWidth stormy calms queues e).1[i]? = some (newStormy W P e1 waveQueue old) ∧
        (rowsAfter W P mWidth stormy calms queues e).2.1[i]?
          = some (newCalm W P mWidth e1 waveQueue old calm) ∧
        (rowsAfter W P mWidth stormy calms queues e).2.2.1[i]?
          = some (queueAfterRow old waveQueue) := by
  induction stormy with
  | nil => intro calms queues e i old calm waveQueue h; simp at h
  | cons a stormy ih =>
    intro calms queues e i old calm waveQueue hS hC hQ
    cases calms with
    | nil => simp at hC
    | cons c calms =>
      cases queues with
      | nil => simp at hQ
      | cons q queues =>
        cases i with
        | zero =>
          simp only [List.getElem?_cons_zero, Option.some.injEq] at hS hC hQ
          subst hS; subst hC; subst hQ
          exact ⟨e, by simp [rowsAfter]⟩
        | succ i =>
          simp only [List.getElem?_cons_succ] at hS hC hQ
          obtain ⟨e1, h1, h2, h3⟩ :=
            ih calms queues (engineAfterRow W P a e) i old calm waveQueue hS hC hQ
          exact ⟨e1, by simp [rowsAfter, h1, h2, h3]⟩

theorem rowsAfter_length (W : World σ α) (P : Params α) (mWidth : Int)
    (stormy : List (ofPolyline α)) :
    ∀ (calms : List (ofPolyline α)) (queues : List (List α)) (e : σ),
      calms.map List.length = stormy.map List.length → queues.length = stormy.length →
      (rowsAfter W P mWidth stormy calms queues e).1.map List.length = stormy.map List.length ∧
      (rowsAfter W P mWidth stormy calms queues e).2.1.map List.length
        = stormy.map List.length ∧
      (rowsAfter W P mWidth stormy calms queues e).2.2.1.length = stormy.length := by
  induction stormy with
  | nil => intro calms queues e _ _; simp [rowsAfter]
  | cons a stormy ih =>
    intro calms queues e hc hq
    cases calms with
    | nil => simp at hc
    | cons c calms =>
      cases queues with
      | nil => simp at hq
      | cons q queues =>
        simp only [List.map_cons, List.cons.injEq] at hc
        simp only [List.length_cons, Nat.add_right_cancel_iff] at hq
        obtain ⟨h1, h2, h3⟩ := ih calms queues (engineAfterRow W P a e) hc.2 hq
        simp [rowsAfter, h1, h2, h3, newStormy, newCalm, length_doubleBuffered, length_damped,
          hc.1]

end FieldRows

/-! ## The first loop of `update` leaves the polylines alone -/

section OccurrenceFrame

variable {σ α : Type} [LinearOrderedField α] [FloorSemiring α]

theorem occurAll_length (R : Rng σ α) (P : Params α) (fuel : Nat) (queues : List (List α)) :
    ∀ (e : σ) (r : List (List α) × σ), occurAll R P fuel queues e = .ok r →
      r.1.length = queues.length := by
  induction queues with
  | nil =>
    intro e r h
    simp only [occurAll, Except.ok.injEq] at h
    subst h; rfl
  | cons q queues ih =>
    intro e r h
    simp only [occurAll, bind, Except.bind, pure, Except.pure] at h
    split at h
    · exact absurd h (by simp)
    · rename_i r1 _
      split at h
      · exact absurd h (by simp)
      · rename_i rs hrs
        simp only [Except.ok.injEq] at h
        subst h
        simp [ih _ _ hrs]

theorem waveOccurrence_frame (W : World σ α) (fuel : Nat) (s s1 : UnknownPleasures σ α)
    (h : waveOccurrence W fuel s = .ok s1) :
    s1.mWidth = s.mWidth ∧ s1.mDepth = s.mDepth ∧ s1.mParams = s.mParams ∧
      s1.mStormyWaves = s.mStormyWaves ∧ s1.mCalmWaves = s.mCalmWaves ∧
      s1.mWaveQueues.length = s.mWaveQueues.length := by
  simp only [waveOccurrence, bind, Except.bind, pure, Except.pure] at h
  split at h
  · exact absurd h (by simp)
  · rename_i r hr
    simp only [Except.ok.injEq] at h
    subst h
    exact ⟨rfl, rfl, rfl, rfl, rfl, occurAll_length _ _ _ _ _ _ hr⟩

theorem waveOccurrence_wellFormed (W : World σ α) (fuel : Nat) (s s1 : UnknownPleasures σ α)
    (hwf : WellFormed s) (h : waveOccurrence W fuel s = .ok s1) : WellFormed s1 := by
  obtain ⟨-, -, -, hS, hC, hQ⟩ := waveOccurrence_frame W fuel s s1 h
  exact ⟨by rw [hS, hC]; exact hwf.1, by rw [hS, hQ]; exact hwf.2⟩

/-- `update` on a well-formed field faults only in its first loop: when the wave occurrence
loop yields `s1`, the update yields the rows `rowsAfter` describes from `s1`. -/
theorem update_ok (W : World σ α) (fuel : Nat) (s s1 : UnknownPleasures σ α)
    (hwf : WellFormed s) (h : waveOccurrence W fuel s = .ok s1) :
    update W fuel s
      = .ok { s1 with
          mStormyWaves :=
            (rowsAfter W s.mParams s.mWidth s.mStormyWaves s.mCalmWaves s1.mWaveQueues
              s1.mEngine).1
          mCalmWaves :=
            (rowsAfter W s.mParams s.mWidth s.mStormyWaves s.mCalmWaves s1.mWaveQueues
              s1.mEngine).2.1
          mWaveQueues :=
            (rowsAfter W s.mParams s.mWidth s.mStormyWaves s.mCalmWaves s1.mWaveQueues
              s1.mEngine).2.2.1
          mEngine :=
            (rowsAfter W s.mParams s.mWidth s.mStormyWaves s.mCalmWaves s1.mWaveQueues
              s1.mEngine).2.2.2 } := by
  obtain ⟨hw, -, hP, hS, hC, -⟩ := waveOccurrence_frame W fuel s s1 h
  simp only [update, h, bind, Except.bind]
  rw [propagate_ok W s1 (waveOccurrence_wellFormed W fuel s s1 hwf h), hw, hP, hS, hC]

end OccurrenceFrame

/-! ## C1: the in-place traversal is a double-buffered update -/

section Claims

variable {σ α : Type} [LinearOrderedField α] [FloorSemiring α]

/-- C1. On a well-formed field whose wave occurrence loop yields a state, one `update` yields a
state in which every row's stormy polyline is the double-buffered image of the polyline `old`
the row had before the update: a fresh buffer computed from the snapshot `old`. In particular
every column `0 < j < N` holds
`old[j].y * waveMomentum + old[j-1].y * (1 - waveMomentum) + ofSignedNoise(x_j, z_j, t) *
perlinNoiseMagnitude`, with `x` and `z` unchanged. -/
theorem update_stormy_eq_doubleBuffered (W : World σ α) (fuel : Nat)
    (s s1 : UnknownPleasures σ α) (hwf : WellFormed s)
    (hocc : waveOccurrence W fuel s = .ok s1) :
    ∃ s2, update W fuel s = .ok s2 ∧
      ∀ (i : Nat) (old : ofPolyline α), s.mStormyWaves[i]? = some old →
        ∃ new : ofPolyline α, s2.mStormyWaves[i]? = some new ∧
          (∃ edge : α, new = doubleBuffered W s.mParams edge old) ∧
          ∀ (j : Nat) (_ : 0 < j) (_ : j < old.length),
            ∃ v : Vec3 α, new[j]? = some v ∧
              v.y = old[j].y * s.mParams.waveMomentum
                    + old[j - 1].y * (1 - s.mParams.waveMomentum)
                    + W.ofSignedNoise old[j].x old[j].z W.t * s.mParams.perlinNoiseMagnitude ∧
              v.x = old[j].x ∧ v.z = old[j].z := by
  refine ⟨_, update_ok W fuel s s1 hwf hocc, ?_⟩
  intro i old hS
  obtain ⟨-, -, -, -, -, hQlen⟩ := waveOccurrence_frame W fuel s s1 hocc
  have hi : i < s.mStormyWaves.length := (List.getElem?_eq_some_iff.mp hS).1
  have hiC : i < s.mCalmWaves.length := by
    have := congrArg List.length hwf.1
    simp only [List.length_map] at this
    omega
  have hiQ : i < s1.mWaveQueues.length := by rw [hQlen, hwf.2]; exact hi
  obtain ⟨e1, h1, -, -⟩ := rowsAfter_getElem? W s.mParams s.mWidth s.mStormyWaves s.mCalmWaves
    s1.mWaveQueues s1.mEngine i old _ _ hS (List.getElem?_eq_getElem hiC)
    (List.getElem?_eq_getElem hiQ)
  refine ⟨_, h1, ⟨_, rfl⟩, ?_⟩
  intro j hj0 hj
  obtain ⟨k, rfl⟩ : ∃ k, j = k + 1 := ⟨j - 1, by omega⟩
  refine ⟨_, getElem?_doubleBuffered_succ W s.mParams _ old k old[k + 1] old[k]
    (List.getElem?_eq_getElem hj) (List.getElem?_eq_getElem (by omega)), ?_⟩
  simp [smoothed]

end Claims

/-- C1, witness: the sample field in the sample world. -/
theorem update_stormy_eq_doubleBuffered_witness :
    WellFormed sampleField ∧ waveOccurrence sampleWorld 0 sampleField = .ok sampleField ∧
    ∃ s2, update sampleWorld 0 sampleField = .ok s2 ∧
      ∀ (i : Nat) (old : ofPolyline ℚ), sampleField.mStormyWaves[i]? = some old →
        ∃ new : ofPolyline ℚ, s2.mStormyWaves[i]? = some new ∧
          (∃ edge : ℚ, new = doubleBuffered sampleWorld sampleField.mParams edge old) ∧
          ∀ (j : Nat) (_ : 0 < j) (_ : j < old.length),
            ∃ v : Vec3 ℚ, new[j]? = some v ∧
              v.y = old[j].y * sampleField.mParams.waveMomentum
                    + old[j - 1].y * (1 - sampleField.mParams.waveMomentum)
                    + sampleWorld.ofSignedNoise old[j].x old[j].z sampleWorld.t
                      * sampleField.mParams.perlinNoiseMagnitude ∧
              v.x = old[j].x ∧ v.z = old[j].z :=
  ⟨⟨rfl, rfl⟩, rfl,
    update_stormy_eq_doubleBuffered sampleWorld 0 sampleField sampleField ⟨rfl, rfl⟩ rfl⟩

/-! ## C3: wave interference on an overlapping prefix -/

section ClaimsOccurrence
variable {σ α : Type} [LinearOrderedField α]

/-- The interference loop from index `i` on, when the previous queue is no longer than the
current one: no fault, same length, sums on the indices still to do, nothing else changed. -/
theorem interfere_spec (prev : List α) (n : Nat) :
    ∀ (i : Nat) (q : List α) (_ : i + n = prev.length) (hle : prev.length ≤ q.length),
      ∃ q1, interfere prev n i q = .ok q1 ∧ q1.length = q.length ∧
        (∀ k, k < i ∨ prev.length ≤ k → q1[k]? = q[k]?) ∧
        (∀ k (_ : i ≤ k) (_ : k < prev.length), q1[k]? = some (q[k] + prev[k])) := by
  induction n with
  | zero =>
    intro i q hi hle
    exact ⟨q, rfl, rfl, fun _ _ => rfl, fun k h1 h2 => by omega⟩
  | succ n ih =>
    intro i q hi hle
    have hiq : i < q.length := by omega
    have hip : i < prev.length := by omega
    obtain ⟨q1, h1, h2, h3, h4⟩ := ih (i + 1) (q.set i (q[i] + prev[i])) (by omega)
      (by simpa using hle)
    refine ⟨q1, ?_, by simpa using h2, ?_, ?_⟩
    · simp only [interfere, readAt_of_getElem? (List.getElem?_eq_getElem hiq),
        readAt_of_getElem? (List.getElem?_eq_getElem hip), writeAt_of_lt _ hiq, bind,
        Except.bind]
      exact h1
    · intro k hk
      rw [h3 k (by omega), List.getElem?_set_ne (by omega)]
    · intro k hk1 hk2
      by_cases hki : k = i
      · subst hki
        rw [h3 k (by omega)]
        simp [hiq]
      · rw [h4 k (by omega) hk2]
        simp [List.getElem_set_ne (Ne.symm hki)]

/-- C3. When the previous queue is no longer than the newly synthesized profile, the
interference loop does not fault and leaves a queue of the length of `next` whose element `i`
is `next[i] + prev[i]` for `i < len(prev)` and `next[i]` for `i ≥ len(prev)`; for
`prev = [1,1,1]` and `next = [0,2,4,6,4,2,0]` the queue is `[1,3,5,6,4,2,0]`. -/
theorem interference_adds_overlapping_prefix (prev next : List α)
    (hle : prev.length ≤ next.length) :
    (∃ q, interfere prev prev.length 0 next = .ok q ∧ q.length = next.length ∧
      (∀ (i : Nat) (a b : α), next[i]? = some a → prev[i]? = some b → q[i]? = some (a + b)) ∧
      (∀ i, prev.length ≤ i → q[i]? = next[i]?)) ∧
    interfere ([1, 1, 1] : List α) 3 0 [0, 2, 4, 6, 4, 2, 0] = .ok [1, 3, 5, 6, 4, 2, 0] := by
  constructor
  · obtain ⟨q, h1, h2, h3, h4⟩ := interfere_spec prev prev.length 0 next (by omega) hle
    refine ⟨q, h1, h2, ?_, fun i hi => h3 i (Or.inr hi)⟩
    intro i a b ha hb
    obtain ⟨hi, rfl⟩ := List.getElem?_eq_some_iff.mp hb
    obtain ⟨_, rfl⟩ := List.getElem?_eq_some_iff.mp ha
    exact h4 i (Nat.zero_le i) hi
  · simp [interfere, readAt, writeAt, bind, Except.bind]
    norm_num

end ClaimsOccurrence

/-! ## C2, C4: the pushed profile and a longer previous queue -/

section ClaimsOccurrence2

/-- C2. For sampled width 3 and height 6 the profile `update` pushes onto an empty queue is
`[0,2,4,6,6,4,2]`: the falling ramp starts at the peak again and stops at `height/width`, so
the profile is not `[0,2,4,6,4,2,0]`, is not symmetric about its midpoint and does not end
at 0. -/
theorem triangle_wave_three_six :
    pushWave (3 : ℚ) 6 [] = .ok [0, 2, 4, 6, 6, 4, 2] ∧
      pushWave (3 : ℚ) 6 [] ≠ .ok [0, 2, 4, 6, 4, 2, 0] := by
  have h : pushWave (3 : ℚ) 6 [] = .ok [0, 2, 4, 6, 6, 4, 2] := by
    simp [pushWave, triangleWave, pushRising, pushFalling, interfere]
    norm_num
  refine ⟨h, ?_⟩
  rw [h]
  simp

/-- C4. A previous queue longer than the new profile makes the interference loop index the
new queue past its end. One tick after a wave of width 3 and height 3 occurred on a fresh
field, six samples are pending; when a wave of width 1 and height 1 occurs on the next tick,
the new profile has three samples and `update` faults with an out-of-bounds access. -/
theorem interference_overruns_shorter_profile :
    update (busyWorld toyLibm 3 0 0 0) 0 freshField = .ok pendingField ∧
      update (busyWorld toyLibm 1 0 0 1) 0 pendingField = .error .outOfBounds := by
  constructor
  · have hocc : waveOccurrence (busyWorld toyLibm 3 0 0 0) 0 freshField
        = .ok { freshField with mWaveQueues := [[0, 1, 2, 3, 3, 2, 1]] } := by
      simp only [waveOccurrence, occurAll, occur, busyWorld, sampleTruncated, redraw, bind,
        Except.bind, pure, Except.pure, freshField, oneRow]
      norm_num
      simp [pushWave, triangleWave, pushRising, pushFalling, interfere]
      norm_num
    rw [update_ok _ 0 freshField _ ⟨rfl, rfl⟩ hocc]
    simp [freshField, pendingField, oneRow, rowsAfter, newStormy, newCalm, doubleBuffered,
      damped, edgeValue, edgeSample, queueAfterRow, engineAfterRow, busyWorld]
  · simp only [update, waveOccurrence, occurAll, occur, busyWorld, sampleTruncated, redraw,
      bind, Except.bind, pure, Except.pure, pendingField, oneRow]
    norm_num
    simp [pushWave, triangleWave, pushRising, pushFalling, interfere, readAt, writeAt, bind,
      Except.bind]

end ClaimsOccurrence2

/-! ## C5: injection at the left edge -/

section ClaimsRow
variable {σ α : Type} [LinearOrderedField α]

/-- C5. The update of a row with at least one column, on a field where the row's calm
polyline is as long as its stormy one and its queue exists, does not fault; with `u` the
uniform sample drawn from the engine, column 0 of the row's stormy polyline then holds `u` and
the queue is still empty when the queue was empty, and holds `u + front` with the queue
reduced to its tail when the queue was `front :: tail`. The vertex `p` column 0 held before
does not enter the value: only its `x` and `z` are kept. -/
theorem left_edge_injection (W : World σ α) (i : Nat) (s : UnknownPleasures σ α)
    (p : Vec3 α) (rest calm : ofPolyline α) (waveQueue : List α)
    (hS : s.mStormyWaves[i]? = some (p :: rest)) (hC : s.mCalmWaves[i]? = some calm)
    (hQ : s.mWaveQueues[i]? = some waveQueue) (hlen : calm.length = (p :: rest).length) :
    ∃ (s2 : UnknownPleasures σ α) (v : Vec3 α) (rest2 : ofPolyline α) (queue2 : List α),
      updateRow W i s = .ok s2 ∧ s2.mStormyWaves[i]? = some (v :: rest2) ∧
      s2.mWaveQueues[i]? = some queue2 ∧ v.x = p.x ∧ v.z = p.z ∧
      (waveQueue = [] →
        v.y = (W.rng.uniform s.mParams.smallWaveHeightMean s.mParams.smallWaveHeightStd
          s.mEngine).1 ∧ queue2 = []) ∧
      (∀ (front : α) (tail : List α), waveQueue = front :: tail →
        v.y = (W.rng.uniform s.mParams.smallWaveHeightMean s.mParams.smallWaveHeightStd
          s.mEngine).1 + front ∧ queue2 = tail ∧ queue2.length + 1 = waveQueue.length) := by
  refine ⟨_, { p with y := edgeValue (edgeSample W s.mParams s.mEngine) waveQueue },
    List.zipWith (smoothed W s.mParams) rest (p :: rest), waveQueue.tail,
    updateRow_ok W i s (p :: rest) calm waveQueue hS hC hQ hlen, ?_, ?_, ?_⟩
  · exact getElem?_set_self_of_getElem? _ hS
  · simp only [List.length_cons, Nat.succ_ne_zero, if_false]
    exact getElem?_set_self_of_getElem? _ hQ
  · refine ⟨rfl, rfl, ?_, ?_⟩
    · intro h; subst h; simp [edgeValue, edgeSample]
    · intro front tail h; subst h; simp [edgeValue, edgeSample]

end ClaimsRow

/-- C5, witness: row 0 of the sample field, whose queue is `[5]`. -/
theorem left_edge_injection_witness :
    sampleField.mStormyWaves[0]? = some (⟨-2, 1, 0⟩ :: [⟨-1, 2, 0⟩, ⟨0, 3, 0⟩]) ∧
    sampleField.mCalmWaves[0]? = some [⟨-2, 0, 0⟩, ⟨-1, 0, 0⟩, ⟨0, 0, 0⟩] ∧
    sampleField.mWaveQueues[0]? = some [5] ∧
    ∃ (s2 : UnknownPleasures Unit ℚ) (v : Vec3 ℚ) (rest2 : ofPolyline ℚ) (queue2 : List ℚ),
      updateRow sampleWorld 0 sampleField = .ok s2 ∧ s2.mStormyWaves[0]? = some (v :: rest2) ∧
      s2.mWaveQueues[0]? = some queue2 ∧ v.x = -2 ∧ v.z = 0 ∧
      (([5] : List ℚ) = [] →
        v.y = (sampleWorld.rng.uniform sampleField.mParams.smallWaveHeightMean
          sampleField.mParams.smallWaveHeightStd sampleField.mEngine).1 ∧ queue2 = []) ∧
      (∀ (front : ℚ) (tail : List ℚ), [5] = front :: tail →
        v.y = (sampleWorld.rng.uniform sampleField.mParams.smallWaveHeightMean
          sampleField.mParams.smallWaveHeightStd sampleField.mEngine).1 + front ∧
        queue2 = tail ∧ queue2.length + 1 = ([5] : List ℚ).length) :=
  ⟨rfl, rfl, rfl,
    left_edge_injection sampleWorld 0 sampleField ⟨-2, 1, 0⟩ [⟨-1, 2, 0⟩, ⟨0, 3, 0⟩]
      [⟨-2, 0, 0⟩, ⟨-1, 0, 0⟩, ⟨0, 0, 0⟩] [5] rfl rfl rfl rfl⟩

/-- C3, witness: `prev = [1,1,1]` and `next = [0,2,4,6,4,2,0]`. -/
theorem interference_adds_overlapping_prefix_witness :
    ([1, 1, 1] : List ℚ).length ≤ ([0, 2, 4, 6, 4, 2, 0] : List ℚ).length ∧
    ((∃ q, interfere ([1, 1, 1] : List ℚ) ([1, 1, 1] : List ℚ).length 0 [0, 2, 4, 6, 4, 2, 0]
        = .ok q ∧ q.length = ([0, 2, 4, 6, 4, 2, 0] : List ℚ).length ∧
      (∀ (i : Nat) (a b : ℚ), ([0, 2, 4, 6, 4, 2, 0] : List ℚ)[i]? = some a →
        ([1, 1, 1] : List ℚ)[i]? = some b → q[i]? = some (a + b)) ∧
      (∀ i, ([1, 1, 1] : List ℚ).length ≤ i → q[i]? = ([0, 2, 4, 6, 4, 2, 0] : List ℚ)[i]?)) ∧
    interfere ([1, 1, 1] : List ℚ) 3 0 [0, 2, 4, 6, 4, 2, 0] = .ok [1, 3, 5, 6, 4, 2, 0]) :=
  ⟨by decide, interference_adds_overlapping_prefix [1, 1, 1] [0, 2, 4, 6, 4, 2, 0] (by decide)⟩

/-! ## Rows of the field after `update` -/

section UpdateRows
variable {σ α : Type} [LinearOrderedField α] [FloorSemiring α]

/-- When `update` returns, its first loop returned. -/
theorem waveOccurrence_of_update (W : World σ α) (fuel : Nat) (s s2 : UnknownPleasures σ α)
    (h : update W fuel s = .ok s2) : ∃ s1, waveOccurrence W fuel s = .ok s1 := by
  simp only [update, bind, Except.bind] at h
  split at h
  · exact absurd h (by simp)
  · rename_i s1 h1
    exact ⟨s1, h1⟩

/-- After `update` on a well-formed field, every stormy polyline is the row update of the
polyline the row had before, for some engine state and queue. -/
theorem update_row_stormy (W : World σ α) (fuel : Nat) (s s2 : UnknownPleasures σ α)
    (hwf : WellFormed s) (h : update W fuel s = .ok s2) (i : Nat) (old : ofPolyline α)
    (hS : s.mStormyWaves[i]? = some old) :
    ∃ (e : σ) (waveQueue : List α),
      s2.mStormyWaves[i]? = some (newStormy W s.mParams e waveQueue old) := by
  obtain ⟨s1, hocc⟩ := waveOccurrence_of_update W fuel s s2 h
  rw [update_ok W fuel s s1 hwf hocc, Except.ok.injEq] at h
  subst h
  obtain ⟨-, -, -, -, -, hQlen⟩ := waveOccurrence_frame W fuel s s1 hocc
  have hi : i < s.mStormyWaves.length := (List.getElem?_eq_some_iff.mp hS).1
  have hiC : i < s.mCalmWaves.length := by
    have := congrArg List.length hwf.1
    simp only [List.length_map] at this
    omega
  have hiQ : i < s1.mWaveQueues.length := by rw [hQlen, hwf.2]; exact hi
  obtain ⟨e1, h1, -, -⟩ := rowsAfter_getElem? W s.mParams s.mWidth s.mStormyWaves s.mCalmWaves
    s1.mWaveQueues s1.mEngine i old _ _ hS (List.getElem?_eq_getElem hiC)
    (List.getElem?_eq_getElem hiQ)
  exact ⟨e1, _, h1⟩

/-- After `update` on a well-formed field, every calm polyline is as long as the stormy
polyline of its row, and each of its vertices holds the stormy height written in this update
times the envelope at the stormy vertex's `x`. -/
theorem update_row_calm (W : World σ α) (fuel : Nat) (s s2 : UnknownPleasures σ α)
    (hwf : WellFormed s) (h : update W fuel s = .ok s2) (i : Nat) (stormy : ofPolyline α)
    (hS : s2.mStormyWaves[i]? = some stormy) :
    ∃ calm : ofPolyline α, s2.mCalmWaves[i]? = some calm ∧ calm.length = stormy.length ∧
      ∀ (j : Nat) (p : Vec3 α), stormy[j]? = some p →
        ∃ c : Vec3 α, calm[j]? = some c ∧
          c.y = p.y * envelope W.libm s.mWidth s.mParams.calmWaveLevel p.x := by
  obtain ⟨s1, hocc⟩ := waveOccurrence_of_update W fuel s s2 h
  rw [update_ok W fuel s s1 hwf hocc, Except.ok.injEq] at h
  subst h
  obtain ⟨-, -, -, -, -, hQlen⟩ := waveOccurrence_frame W fuel s s1 hocc
  have hlenS := (rowsAfter_length W s.mParams s.mWidth s.mStormyWaves s.mCalmWaves
    s1.mWaveQueues s1.mEngine hwf.1 (by rw [hQlen, hwf.2])).1
  have hi : i < s.mStormyWaves.length := by
    have h1 := (List.getElem?_eq_some_iff.mp hS).1
    have h2 := congrArg List.length hlenS
    simp only [List.length_map] at h2
    simp only at h1
    omega
  have hiC : i < s.mCalmWaves.length := by
    have := congrArg List.length hwf.1
    simp only [List.length_map] at this
    omega
  have hiQ : i < s1.mWaveQueues.length := by rw [hQlen, hwf.2]; exact hi
  have hcl : s.mCalmWaves[i].length = s.mStormyWaves[i].length := by
    have := congrArg (fun l => l[i]?) hwf.1
    simpa [List.getElem?_map, List.getElem?_eq_getElem hi, List.getElem?_eq_getElem hiC]
      using this
  obtain ⟨e1, h1, h2, -⟩ := rowsAfter_getElem? W s.mParams s.mWidth s.mStormyWaves s.mCalmWaves
    s1.mWaveQueues s1.mEngine i _ _ _ (List.getElem?_eq_getElem hi)
    (List.getElem?_eq_getElem hiC) (List.getElem?_eq_getElem hiQ)
  have hst : stormy = newStormy W s.mParams e1 s1.mWaveQueues[i] s.mStormyWaves[i] :=
    Option.some.inj (hS.symm.trans h1)
  have hsl : stormy.length = s.mStormyWaves[i].length := by
    rw [hst, newStormy, length_doubleBuffered]
  refine ⟨_, h2, ?_, ?_⟩
  · rw [newCalm, length_damped _ _ _ _ _ (by rw [newStormy, length_doubleBuffered, hcl]),
      ← hst]
  · intro j p hp
    have hj : j < s.mCalmWaves[i].length := by
      have := (List.getElem?_eq_some_iff.mp hp).1
      omega
    exact ⟨_, getElem?_damped W.libm s.mWidth s.mParams.calmWaveLevel _ _ j p _
      (hst ▸ hp) (List.getElem?_eq_getElem hj), rfl⟩

end UpdateRows

/-! ## C8: the shift with `waveMomentum = 0` -/

section ClaimShift
variable {σ α : Type} [LinearOrderedField α] [FloorSemiring α]

/-- C8 (amended). With `waveMomentum = 0`, on a well-formed field whose wave occurrence loop
returns, one `update` leaves every column `j > 0` of every row with the stormy height column
`j - 1` held before the update plus the noise term
`ofSignedNoise(x_j, z_j, t) * perlinNoiseMagnitude`; it is exactly the previous height of
column `j - 1` when `perlinNoiseMagnitude = 0`. -/
theorem zero_momentum_shifts_plus_noise (W : World σ α) (fuel : Nat)
    (s s1 : UnknownPleasures σ α) (hwf : WellFormed s)
    (hocc : waveOccurrence W fuel s = .ok s1) (hm : s.mParams.waveMomentum = 0) :
    ∃ s2, update W fuel s = .ok s2 ∧
      ∀ (i : Nat) (old : ofPolyline α), s.mStormyWaves[i]? = some old →
        ∃ new : ofPolyline α, s2.mStormyWaves[i]? = some new ∧
          ∀ (j : Nat) (_ : 0 < j) (_ : j < old.length),
            ∃ v : Vec3 α, new[j]? = some v ∧
              v.y = old[j - 1].y
                    + W.ofSignedNoise old[j].x old[j].z W.t * s.mParams.perlinNoiseMagnitude ∧
              (s.mParams.perlinNoiseMagnitude = 0 → v.y = old[j - 1].y) := by
  refine ⟨_, update_ok W fuel s s1 hwf hocc, ?_⟩
  intro i old hS
  obtain ⟨e, waveQueue, h1⟩ :=
    update_row_stormy W fuel s _ hwf (update_ok W fuel s s1 hwf hocc) i old hS
  refine ⟨_, h1, ?_⟩
  intro j hj0 hj
  obtain ⟨k, rfl⟩ : ∃ k, j = k + 1 := ⟨j - 1, by omega⟩
  refine ⟨_, getElem?_doubleBuffered_succ W s.mParams _ old k old[k + 1] old[k]
    (List.getElem?_eq_getElem hj) (List.getElem?_eq_getElem (by omega)), ?_, ?_⟩
  · simp [smoothed, hm]
  · intro h0
    simp [smoothed, hm, h0]

end ClaimShift

/-- C8, counterexample. With `waveMomentum = 0`, the default `perlinNoiseMagnitude = 0.1` and
a noise sample of 1, the row with heights `[1, 2, 3]` has heights `[7, 1.1, 2.1]` after one
update: column 1 holds `1.1`, not the `1` column 0 held before. -/
theorem zero_momentum_shift_counterexample :
    shiftField.mParams.waveMomentum = 0 ∧
    shiftField.mStormyWaves.map (List.map Vec3.y) = [[1, 2, 3]] ∧
    (update sampleWorld 0 shiftField).map (fun s2 => s2.mStormyWaves.map (List.map Vec3.y))
      = .ok [[7, 11 / 10, 21 / 10]] ∧
    (11 / 10 : ℚ) ≠ 1 := by
  refine ⟨rfl, rfl, ?_, by norm_num⟩
  have hocc : waveOccurrence sampleWorld 0 shiftField = .ok shiftField := rfl
  rw [update_ok _ 0 shiftField _ ⟨rfl, rfl⟩ hocc]
  simp [shiftField, sampleWorld, quietWorld, oneRow, rowsAfter, newStormy, doubleBuffered,
    smoothed, edgeValue, edgeSample, defaultParams, Except.map]
  norm_num

/-- C8, witness: the sample field with `waveMomentum = 0`. -/
theorem zero_momentum_shifts_plus_noise_witness :
    WellFormed shiftField ∧ waveOccurrence sampleWorld 0 shiftField = .ok shiftField ∧
    shiftField.mParams.waveMomentum = 0 ∧
    ∃ s2, update sampleWorld 0 shiftField = .ok s2 ∧
      ∀ (i : Nat) (old : ofPolyline ℚ), shiftField.mStormyWaves[i]? = some old →
        ∃ new : ofPolyline ℚ, s2.mStormyWaves[i]? = some new ∧
          ∀ (j : Nat) (_ : 0 < j) (_ : j < old.length),
            ∃ v : Vec3 ℚ, new[j]? = some v ∧
              v.y = old[j - 1].y
                    + sampleWorld.ofSignedNoise old[j].x old[j].z sampleWorld.t
                      * shiftField.mParams.perlinNoiseMagnitude ∧
              (shiftField.mParams.perlinNoiseMagnitude = 0 → v.y = old[j - 1].y) :=
  ⟨⟨rfl, rfl⟩, rfl, rfl,
    zero_momentum_shifts_plus_noise sampleWorld 0 shiftField shiftField ⟨rfl, rfl⟩ rfl rfl⟩

/-! ## C6, C9, C10: the damping envelope -/

section Envelope
variable {α : Type} [LinearOrderedField α]

/-- The envelope of line 149 written with a division by 2. -/
theorem envelope_eq (L : Libm α) (mWidth : Int) (c x : α) :
    envelope L mWidth c x
      = L.pow ((L.cos (x * L.M_PI / ((mWidth >>> (1 : Nat) : Int) : α)) + 1) / 2) c := by
  have h : ∀ a : α, a * 0.5 = a / 2 := by
    intro a
    norm_num
    ring
  rw [envelope, h]

/-- The arithmetic shift `n >> 1` is the floor of `n / 2`. -/
theorem shiftRight_one_eq_div (n : Int) : n >>> (1 : Nat) = n / 2 := by
  cases n with
  | ofNat m =>
    show ((m >>> 1 : Nat) : Int) = (m : Int) / 2
    rw [Nat.shiftRight_eq_div_pow]
    omega
  | negSucc m =>
    show Int.negSucc (m >>> 1) = Int.negSucc m / 2
    rw [Nat.shiftRight_eq_div_pow, Int.negSucc_eq, Int.negSucc_eq]
    have : ((m / 2 ^ 1 : Nat) : Int) = (m : Int) / 2 := by omega
    omega

/-- For an even width the integer half width is half the width. -/
theorem cast_shiftRight_one_of_even (mWidth : Int) (h : mWidth % 2 = 0) :
    (((mWidth >>> (1 : Nat) : Int)) : α) = (mWidth : α) / 2 := by
  have h2 : (2 : Int) ∣ mWidth := Int.dvd_of_emod_eq_zero h
  rw [shiftRight_one_eq_div, Int.cast_div h2 (by norm_num)]
  norm_num

theorem envelope_at_zero (L : Libm ℝ) (hL : IsExact L) (mWidth : Int) (c : ℝ) :
    envelope L mWidth c 0 = 1 := by
  obtain ⟨h1, h2, h3⟩ := hL
  simp only [envelope, h1, h2, h3, zero_mul, zero_div, Real.cos_zero]
  norm_num

theorem envelope_at_half_width (L : Libm ℝ) (hL : IsExact L) (mWidth : Int)
    (hw : mWidth >>> (1 : Nat) ≠ 0) (c : ℝ) (hc : 0 < c) :
    envelope L mWidth c (((mWidth >>> (1 : Nat) : Int) : ℝ)) = 0 ∧
      envelope L mWidth c (-((mWidth >>> (1 : Nat) : Int) : ℝ)) = 0 := by
  obtain ⟨h1, h2, h3⟩ := hL
  have hw2 : (((mWidth >>> (1 : Nat) : Int)) : ℝ) ≠ 0 := by exact_mod_cast hw
  have e1 : (((mWidth >>> (1 : Nat) : Int)) : ℝ) * Real.pi / (((mWidth >>> (1 : Nat) : Int)) : ℝ) = Real.pi := by
    rw [mul_comm, mul_div_assoc, div_self hw2, mul_one]
  have e2 : -(((mWidth >>> (1 : Nat) : Int)) : ℝ) * Real.pi / (((mWidth >>> (1 : Nat) : Int)) : ℝ)
      = -Real.pi := by
    rw [neg_mul, neg_div, e1]
  constructor
  · simp only [envelope, h1, h2, h3, e1, Real.cos_pi]
    norm_num
    exact Real.zero_rpow hc.ne'
  · simp only [envelope, h1, h2, h3, e2, Real.cos_neg, Real.cos_pi]
    norm_num
    exact Real.zero_rpow hc.ne'

end Envelope

section ClaimCalm
variable {σ α : Type} [LinearOrderedField α] [FloorSemiring α]

/-- C6 (amended). On a well-formed field whose wave occurrence loop returns, `update` returns
and afterwards, for every row and every column `j` (column 0 included),
`calm[j].y = stormy[j].y * pow((cos(x_j * M_PI / halfWidth) + 1) / 2, calmWaveLevel)` with
`stormy[j]` the vertex written in this update and `halfWidth` the integer `mWidth >> 1`, the
floor of `mWidth / 2`; it is half the width when the width is even. -/
theorem calm_is_damped_stormy (W : World σ α) (fuel : Nat) (s s1 : UnknownPleasures σ α)
    (hwf : WellFormed s) (hocc : waveOccurrence W fuel s = .ok s1) :
    s.mWidth >>> (1 : Nat) = s.mWidth / 2 ∧
    (s.mWidth % 2 = 0 → (((s.mWidth >>> (1 : Nat) : Int)) : α) = (s.mWidth : α) / 2) ∧
    ∃ s2, update W fuel s = .ok s2 ∧
      ∀ (i : Nat) (stormy : ofPolyline α), s2.mStormyWaves[i]? = some stormy →
        ∃ calm : ofPolyline α, s2.mCalmWaves[i]? = some calm ∧ calm.length = stormy.length ∧
          ∀ (j : Nat) (p : Vec3 α), stormy[j]? = some p →
            ∃ c : Vec3 α, calm[j]? = some c ∧
              c.y = p.y * W.libm.pow
                ((W.libm.cos (p.x * W.libm.M_PI / ((s.mWidth >>> (1 : Nat) : Int) : α)) + 1) / 2)
                s.mParams.calmWaveLevel := by
  refine ⟨shiftRight_one_eq_div s.mWidth, cast_shiftRight_one_of_even s.mWidth,
    _, update_ok W fuel s s1 hwf hocc, ?_⟩
  intro i stormy hS
  obtain ⟨calm, h1, h2, h3⟩ :=
    update_row_calm W fuel s _ hwf (update_ok W fuel s s1 hwf hocc) i stormy hS
  refine ⟨calm, h1, h2, ?_⟩
  intro j p hp
  obtain ⟨c, hc1, hc2⟩ := h3 j p hp
  exact ⟨c, hc1, by rw [hc2, envelope_eq]⟩

end ClaimCalm

/-- C6, counterexample. In a field of width 3 the envelope divides by `3 >> 1 = 1`, not by
`3 / 2`: with `calmWaveLevel = 1` and a uniform sample of 1, the left edge `x = -1` gets the
stormy height 1 and the calm height `1 * ((cos(-π) + 1) / 2) = 0`, where the formula with half
the width gives `1 * ((cos(-π / 1.5) + 1) / 2) = 1/4`. -/
theorem calm_half_width_counterexample :
    (oddField ℝ).mWidth = 3 ∧ (oddField ℝ).mParams.calmWaveLevel = 1 ∧
    ∃ (s2 : UnknownPleasures Unit ℝ) (p c : Vec3 ℝ),
      update (quietWorld ⟨Real.cos, fun x y => x ^ y, Real.pi⟩ 0 1 0 0) 0 (oddField ℝ) = .ok s2 ∧
      s2.mStormyWaves = [[p]] ∧ s2.mCalmWaves = [[c]] ∧ p = ⟨-1, 1, 0⟩ ∧ c.y = 0 ∧
      c.y ≠ p.y * ((Real.cos (p.x * Real.pi / (3 / 2)) + 1) / 2) ^ (1 : ℝ) := by
  refine ⟨rfl, rfl, ?_⟩
  have hocc : waveOccurrence (quietWorld ⟨Real.cos, fun x y => x ^ y, Real.pi⟩ 0 1 0 0) 0
      (oddField ℝ) = .ok (oddField ℝ) := rfl
  have h31 : ((3 : Int) >>> (1 : Nat)) = 1 := by decide
  have hcos : Real.cos (-1 * Real.pi / (3 / 2)) = -1 / 2 := by
    have : -1 * Real.pi / (3 / 2) = -(Real.pi - Real.pi / 3) := by ring
    rw [this, Real.cos_neg, Real.cos_pi_sub, Real.cos_pi_div_three]
    norm_num
  refine ⟨_, ⟨-1, 1, 0⟩, ⟨-1, 0, 0⟩, update_ok _ 0 (oddField ℝ) _ ⟨rfl, rfl⟩ hocc, ?_, ?_, rfl,
    rfl, ?_⟩
  · simp [oddField, quietWorld, oneRow, rowsAfter, newStormy, doubleBuffered, edgeValue,
      edgeSample]
  · simp [oddField, quietWorld, oneRow, rowsAfter, newStormy, newCalm, damped, doubleBuffered,
      edgeValue, edgeSample, envelope, h31]
  · simp only [hcos]
    norm_num

/-- C6, witness: the sample field in the sample world. -/
theorem calm_is_damped_stormy_witness :
    WellFormed sampleField ∧ waveOccurrence sampleWorld 0 sampleField = .ok sampleField ∧
    (sampleField.mWidth >>> (1 : Nat) = sampleField.mWidth / 2 ∧
    (sampleField.mWidth % 2 = 0 →
      (((sampleField.mWidth >>> (1 : Nat) : Int)) : ℚ) = (sampleField.mWidth : ℚ) / 2) ∧
    ∃ s2, update sampleWorld 0 sampleField = .ok s2 ∧
      ∀ (i : Nat) (stormy : ofPolyline ℚ), s2.mStormyWaves[i]? = some stormy →
        ∃ calm : ofPolyline ℚ, s2.mCalmWaves[i]? = some calm ∧ calm.length = stormy.length ∧
          ∀ (j : Nat) (p : Vec3 ℚ), stormy[j]? = some p →
            ∃ c : Vec3 ℚ, calm[j]? = some c ∧
              c.y = p.y * sampleWorld.libm.pow
                ((sampleWorld.libm.cos (p.x * sampleWorld.libm.M_PI
                  / ((sampleField.mWidth >>> (1 : Nat) : Int) : ℚ)) + 1) / 2)
                sampleField.mParams.calmWaveLevel) :=
  ⟨⟨rfl, rfl⟩, rfl, calm_is_damped_stormy sampleWorld 0 sampleField sampleField ⟨rfl, rfl⟩ rfl⟩

section ClaimEnvelope
variable {σ : Type}

/-- C9. With the exact real `cos`, `pow` and `π`, the damping envelope at `x = 0` is 1 for
every `calmWaveLevel`, and after an `update` of a well-formed field (whose wave occurrence
loop returns) every column whose x-coordinate is 0 has a calm height equal to the stormy
height written in this update. -/
theorem calm_eq_stormy_at_center (W : World σ ℝ) (fuel : Nat) (s s1 : UnknownPleasures σ ℝ)
    (hL : IsExact W.libm) (hwf : WellFormed s) (hocc : waveOccurrence W fuel s = .ok s1) :
    envelope W.libm s.mWidth s.mParams.calmWaveLevel 0 = 1 ∧
    ∃ s2, update W fuel s = .ok s2 ∧
      ∀ (i : Nat) (stormy : ofPolyline ℝ), s2.mStormyWaves[i]? = some stormy →
        ∃ calm : ofPolyline ℝ, s2.mCalmWaves[i]? = some calm ∧
          ∀ (j : Nat) (p : Vec3 ℝ), stormy[j]? = some p → p.x = 0 →
            ∃ c : Vec3 ℝ, calm[j]? = some c ∧ c.y = p.y := by
  refine ⟨envelope_at_zero W.libm hL _ _, _, update_ok W fuel s s1 hwf hocc, ?_⟩
  intro i stormy hS
  obtain ⟨calm, h1, -, h3⟩ :=
    update_row_calm W fuel s _ hwf (update_ok W fuel s s1 hwf hocc) i stormy hS
  refine ⟨calm, h1, ?_⟩
  intro j p hp hx
  obtain ⟨c, hc1, hc2⟩ := h3 j p hp
  exact ⟨c, hc1, by rw [hc2, hx, envelope_at_zero W.libm hL, mul_one]⟩

/-- C10 (amended). With the exact real `cos`, `pow` and `π`, a half width `mWidth >> 1` that
is not 0 and `calmWaveLevel > 0`, the damping envelope at `x = mWidth >> 1` and at
`x = -(mWidth >> 1)` is 0, and after an `update` of a well-formed field (whose wave occurrence
loop returns) every column with one of these x-coordinates has calm height 0, whatever its
stormy height. -/
theorem calm_zero_at_edges (W : World σ ℝ) (fuel : Nat) (s s1 : UnknownPleasures σ ℝ)
    (hL : IsExact W.libm) (hwf : WellFormed s) (hocc : waveOccurrence W fuel s = .ok s1)
    (hw : s.mWidth >>> (1 : Nat) ≠ 0) (hc : 0 < s.mParams.calmWaveLevel) :
    (envelope W.libm s.mWidth s.mParams.calmWaveLevel ((s.mWidth >>> (1 : Nat) : Int) : ℝ) = 0 ∧
      envelope W.libm s.mWidth s.mParams.calmWaveLevel (-((s.mWidth >>> (1 : Nat) : Int) : ℝ))
        = 0) ∧
    ∃ s2, update W fuel s = .ok s2 ∧
      ∀ (i : Nat) (stormy : ofPolyline ℝ), s2.mStormyWaves[i]? = some stormy →
        ∃ calm : ofPolyline ℝ, s2.mCalmWaves[i]? = some calm ∧
          ∀ (j : Nat) (p : Vec3 ℝ), stormy[j]? = some p →
            p.x = ((s.mWidth >>> (1 : Nat) : Int) : ℝ) ∨
              p.x = -((s.mWidth >>> (1 : Nat) : Int) : ℝ) →
            ∃ c : Vec3 ℝ, calm[j]? = some c ∧ c.y = 0 := by
  have henv := envelope_at_half_width W.libm hL s.mWidth hw s.mParams.calmWaveLevel hc
  refine ⟨henv, _, update_ok W fuel s s1 hwf hocc, ?_⟩
  intro i stormy hS
  obtain ⟨calm, h1, -, h3⟩ :=
    update_row_calm W fuel s _ hwf (update_ok W fuel s s1 hwf hocc) i stormy hS
  refine ⟨calm, h1, ?_⟩
  intro j p hp hx
  obtain ⟨c, hc1, hc2⟩ := h3 j p hp
  refine ⟨c, hc1, ?_⟩
  rcases hx with hx | hx
  · rw [hc2, hx, henv.1, mul_zero]
  · rw [hc2, hx, henv.2, mul_zero]

end ClaimEnvelope

/-- C10, counterexample. With `calmWaveLevel = 0` the envelope at the left edge
`x = -(mWidth >> 1)` is `pow(0, 0) = 1`: in a field of width 2 and a uniform sample of 1, the
column `x = -1` gets the stormy height 1 and the calm height 1, not 0. -/
theorem calm_zero_level_counterexample :
    (flatField ℝ).mParams.calmWaveLevel = 0 ∧
    ∃ (s2 : UnknownPleasures Unit ℝ) (p c : Vec3 ℝ),
      update (quietWorld ⟨Real.cos, fun x y => x ^ y, Real.pi⟩ 0 1 0 0) 0 (flatField ℝ) = .ok s2 ∧
      s2.mStormyWaves = [[p]] ∧ s2.mCalmWaves = [[c]] ∧
      p.x = -(((flatField ℝ).mWidth >>> (1 : Nat) : Int) : ℝ) ∧ p.y = 1 ∧ c.y = 1 ∧ c.y ≠ 0 := by
  refine ⟨rfl, ?_⟩
  have hocc : waveOccurrence (quietWorld ⟨Real.cos, fun x y => x ^ y, Real.pi⟩ 0 1 0 0) 0
      (flatField ℝ) = .ok (flatField ℝ) := rfl
  have h21 : ((2 : Int) >>> (1 : Nat)) = 1 := by decide
  refine ⟨_, ⟨-1, 1, 0⟩, ⟨-1, 1, 0⟩, update_ok _ 0 (flatField ℝ) _ ⟨rfl, rfl⟩ hocc, ?_, ?_, ?_,
    rfl, rfl, by norm_num⟩
  · simp [flatField, quietWorld, oneRow, rowsAfter, newStormy, doubleBuffered, edgeValue,
      edgeSample]
  · simp [flatField, quietWorld, oneRow, rowsAfter, newStormy, newCalm, damped, doubleBuffered,
      edgeValue, edgeSample, envelope, h21]
  · simp [flatField, oneRow, h21]

/-- C9, witness: the field `setup` builds for width 2, which has a column at `x = 0`. -/
theorem calm_eq_stormy_at_center_witness :
    IsExact (quietWorld ⟨Real.cos, fun x y => x ^ y, Real.pi⟩ 0 1 0 0).libm ∧
    WellFormed (centerField ℝ) ∧
    waveOccurrence (quietWorld ⟨Real.cos, fun x y => x ^ y, Real.pi⟩ 0 1 0 0) 0 (centerField ℝ)
      = .ok (centerField ℝ) ∧
    (envelope (quietWorld ⟨Real.cos, fun x y => x ^ y, Real.pi⟩ 0 1 0 0).libm
        (centerField ℝ).mWidth (centerField ℝ).mParams.calmWaveLevel 0 = 1 ∧
    ∃ s2, update (quietWorld ⟨Real.cos, fun x y => x ^ y, Real.pi⟩ 0 1 0 0) 0 (centerField ℝ)
        = .ok s2 ∧
      ∀ (i : Nat) (stormy : ofPolyline ℝ), s2.mStormyWaves[i]? = some stormy →
        ∃ calm : ofPolyline ℝ, s2.mCalmWaves[i]? = some calm ∧
          ∀ (j : Nat) (p : Vec3 ℝ), stormy[j]? = some p → p.x = 0 →
            ∃ c : Vec3 ℝ, calm[j]? = some c ∧ c.y = p.y) :=
  ⟨⟨rfl, rfl, rfl⟩, ⟨rfl, rfl⟩, rfl,
    calm_eq_stormy_at_center (quietWorld ⟨Real.cos, fun x y => x ^ y, Real.pi⟩ 0 1 0 0) 0
      (centerField ℝ) (centerField ℝ) ⟨rfl, rfl, rfl⟩ ⟨rfl, rfl⟩ rfl⟩

/-- C10, witness: the field `setup` builds for width 2, whose left edge is `x = -1`. -/
theorem calm_zero_at_edges_witness :
    IsExact (quietWorld ⟨Real.cos, fun x y => x ^ y, Real.pi⟩ 0 1 0 0).libm ∧
    WellFormed (centerField ℝ) ∧
    waveOccurrence (quietWorld ⟨Real.cos, fun x y => x ^ y, Real.pi⟩ 0 1 0 0) 0 (centerField ℝ)
      = .ok (centerField ℝ) ∧
    (centerField ℝ).mWidth >>> (1 : Nat) ≠ 0 ∧ 0 < (centerField ℝ).mParams.calmWaveLevel ∧
    ((envelope (quietWorld ⟨Real.cos, fun x y => x ^ y, Real.pi⟩ 0 1 0 0).libm
        (centerField ℝ).mWidth (centerField ℝ).mParams.calmWaveLevel
        (((centerField ℝ).mWidth >>> (1 : Nat) : Int) : ℝ) = 0 ∧
      envelope (quietWorld ⟨Real.cos, fun x y => x ^ y, Real.pi⟩ 0 1 0 0).libm
        (centerField ℝ).mWidth (centerField ℝ).mParams.calmWaveLevel
        (-(((centerField ℝ).mWidth >>> (1 : Nat) : Int) : ℝ)) = 0) ∧
    ∃ s2, update (quietWorld ⟨Real.cos, fun x y => x ^ y, Real.pi⟩ 0 1 0 0) 0 (centerField ℝ)
        = .ok s2 ∧
      ∀ (i : Nat) (stormy : ofPolyline ℝ), s2.mStormyWaves[i]? = some stormy →
        ∃ calm : ofPolyline ℝ, s2.mCalmWaves[i]? = some calm ∧
          ∀ (j : Nat) (p : Vec3 ℝ), stormy[j]? = some p →
            p.x = (((centerField ℝ).mWidth >>> (1 : Nat) : Int) : ℝ) ∨
              p.x = -(((centerField ℝ).mWidth >>> (1 : Nat) : Int) : ℝ) →
            ∃ c : Vec3 ℝ, calm[j]? = some c ∧ c.y = 0) :=
  ⟨⟨rfl, rfl, rfl⟩, ⟨rfl, rfl⟩, rfl, by decide,
    by simp [centerField, oneRow, defaultParams],
    calm_zero_at_edges (quietWorld ⟨Real.cos, fun x y => x ^ y, Real.pi⟩ 0 1 0 0) 0
      (centerField ℝ) (centerField ℝ) ⟨rfl, rfl, rfl⟩ ⟨rfl, rfl⟩ rfl (by decide)
      (by simp [centerField, oneRow, defaultParams])⟩

/-! ## C7: the row lengths are fixed by `setup` -/

section SetupShape
variable {σ α : Type} [LinearOrderedField α]

theorem map_length_modifyLast_append {β : Type} (l : List (List β)) (b : β) :
    (l.modifyLast (fun wave => wave ++ [b])).map List.length
      = (l.map List.length).modifyLast (fun n => n + 1) := by
  rcases List.eq_nil_or_concat l with h | ⟨l1, a, h⟩
  · subst h; rfl
  · subst h
    rw [List.concat_eq_append, List.modifyLast_append_one, List.map_append, List.map_append,
      List.map_singleton, List.map_singleton, List.modifyLast_append_one]
    simp

theorem length_modifyLast {β : Type} (f : β → β) (l : List β) :
    (l.modifyLast f).length = l.length := by
  rcases List.eq_nil_or_concat l with h | ⟨l1, a, h⟩
  · subst h; rfl
  · subst h
    rw [List.concat_eq_append, List.modifyLast_append_one]
    simp

/-- The inner loop of `setup` keeps the field well-formed. -/
theorem addColumns_wellFormed (z : α) (fuel : Nat) :
    ∀ (x : α) (s s1 : UnknownPleasures σ α), addColumns z fuel x s = .ok s1 →
      WellFormed s → WellFormed s1 := by
  induction fuel with
  | zero =>
    intro x s s1 h hwf
    simp only [addColumns] at h
    split at h
    · exact absurd h (by simp)
    · simp only [Except.ok.injEq] at h
      exact h ▸ hwf
  | succ fuel ih =>
    intro x s s1 h hwf
    simp only [addColumns] at h
    split at h
    · refine ih _ _ _ h ⟨?_, ?_⟩
      · simp only [map_length_modifyLast_append, hwf.1]
      · simp only [length_modifyLast, hwf.2]
    · simp only [Except.ok.injEq] at h
      exact h ▸ hwf

/-- The outer loop of `setup` keeps the field well-formed. -/
theorem addRows_wellFormed (colFuel fuel : Nat) :
    ∀ (z : α) (s s1 : UnknownPleasures σ α), addRows colFuel fuel z s = .ok s1 →
      WellFormed s → WellFormed s1 := by
  induction fuel with
  | zero =>
    intro z s s1 h hwf
    simp only [addRows] at h
    split at h
    · exact absurd h (by simp)
    · simp only [Except.ok.injEq] at h
      exact h ▸ hwf
  | succ fuel ih =>
    intro z s s1 h hwf
    simp only [addRows, bind, Except.bind] at h
    split at h
    · split at h
      · exact absurd h (by simp)
      · rename_i s2 h2
        refine ih _ _ _ h (addColumns_wellFormed z colFuel _ _ _ h2 ⟨?_, ?_⟩)
        · simp [hwf.1]
        · simp [hwf.2]
    · simp only [Except.ok.injEq] at h
      exact h ▸ hwf

/-- The field `setup` returns is well-formed. -/
theorem setupWith_wellFormed (P : Params α) (mWidth mDepth : Int) (e : σ)
    (rowFuel colFuel : Nat) (s0 : UnknownPleasures σ α)
    (h : setupWith P mWidth mDepth e rowFuel colFuel = .ok s0) : WellFormed s0 :=
  addRows_wellFormed colFuel rowFuel _ _ _ h ⟨rfl, rfl⟩

end SetupShape

section UpdateShape
variable {σ α : Type} [LinearOrderedField α] [FloorSemiring α]

/-- `update` keeps a well-formed field well-formed and changes the length of no polyline. -/
theorem update_shape (W : World σ α) (fuel : Nat) (s s2 : UnknownPleasures σ α)
    (hwf : WellFormed s) (h : update W fuel s = .ok s2) :
    WellFormed s2 ∧ s2.mStormyWaves.map List.length = s.mStormyWaves.map List.length := by
  obtain ⟨s1, hocc⟩ := waveOccurrence_of_update W fuel s s2 h
  rw [update_ok W fuel s s1 hwf hocc, Except.ok.injEq] at h
  subst h
  obtain ⟨-, -, -, -, -, hQlen⟩ := waveOccurrence_frame W fuel s s1 hocc
  obtain ⟨h1, h2, h3⟩ := rowsAfter_length W s.mParams s.mWidth s.mStormyWaves s.mCalmWaves
    s1.mWaveQueues s1.mEngine hwf.1 (by rw [hQlen, hwf.2])
  refine ⟨⟨?_, ?_⟩, h1⟩
  · simp only [h1, h2]
  · have := congrArg List.length h1
    simp only [List.length_map] at this
    simp only [h3, this]

theorem updates_shape (ticks : List (World σ α × Nat)) :
    ∀ (s s2 : UnknownPleasures σ α), WellFormed s → updates ticks s = .ok s2 →
      WellFormed s2 ∧ s2.mStormyWaves.map List.length = s.mStormyWaves.map List.length := by
  induction ticks with
  | nil =>
    intro s s2 hwf h
    simp only [updates, Except.ok.injEq] at h
    exact h ▸ ⟨hwf, rfl⟩
  | cons tick ticks ih =>
    intro s s2 hwf h
    simp only [updates, bind, Except.bind] at h
    split at h
    · exact absurd h (by simp)
    · rename_i s1 h1
      obtain ⟨hwf1, hs1⟩ := update_shape tick.1 tick.2 s s1 hwf h1
      obtain ⟨hwf2, hs2⟩ := ih s1 s2 hwf1 h
      exact ⟨hwf2, hs2.trans hs1⟩

/-- C7. In every state reached from the field `setup` returns by any number of updates, there
are as many calm polylines and wave queues as stormy polylines, as many rows as after
`setup`, and in every row the stormy and the calm polyline both have the length `setup` gave
the row's stormy polyline. -/
theorem row_lengths_fixed_by_setup (P : Params α) (mWidth mDepth : Int) (e : σ)
    (rowFuel colFuel : Nat) (s0 : UnknownPleasures σ α)
    (h0 : setupWith P mWidth mDepth e rowFuel colFuel = .ok s0)
    (ticks : List (World σ α × Nat)) (s : UnknownPleasures σ α)
    (h : updates ticks s0 = .ok s) :
    s.mCalmWaves.length = s.mStormyWaves.length ∧
    s.mWaveQueues.length = s.mStormyWaves.length ∧
    s.mStormyWaves.length = s0.mStormyWaves.length ∧
    ∀ (i : Nat) (stormy : ofPolyline α), s.mStormyWaves[i]? = some stormy →
      ∃ calm row0 : ofPolyline α, s.mCalmWaves[i]? = some calm ∧
        s0.mStormyWaves[i]? = some row0 ∧
        calm.length = stormy.length ∧ stormy.length = row0.length := by
  obtain ⟨hwf, hs⟩ := updates_shape ticks s0 s
    (setupWith_wellFormed P mWidth mDepth e rowFuel colFuel s0 h0) h
  have hc := congrArg List.length hwf.1
  have hn := congrArg List.length hs
  simp only [List.length_map] at hc hn
  refine ⟨hc, hwf.2, hn, ?_⟩
  intro i stormy hS
  have hi : i < s.mStormyWaves.length := (List.getElem?_eq_some_iff.mp hS).1
  have hiC : i < s.mCalmWaves.length := by omega
  have hi0 : i < s0.mStormyWaves.length := by omega
  refine ⟨s.mCalmWaves[i], s0.mStormyWaves[i], List.getElem?_eq_getElem hiC,
    List.getElem?_eq_getElem hi0, ?_, ?_⟩
  · have := congrArg (fun l => l[i]?) hwf.1
    simpa [List.getElem?_map, hS, List.getElem?_eq_getElem hiC] using this
  · have := congrArg (fun l => l[i]?) hs
    simpa [List.getElem?_map, hS, List.getElem?_eq_getElem hi0] using this

end UpdateShape

/-- C7, witness: `setup` for width 2 and depth 2, then one update. -/
theorem row_lengths_fixed_by_setup_witness :
    setupWith defaultParams 2 2 () 1 4 = .ok (centerField ℚ) ∧
    updates [(quietWorld toyLibm 0 1 0 0, 0)] (centerField ℚ) = .ok centerFieldNext ∧
    (centerFieldNext.mCalmWaves.length = centerFieldNext.mStormyWaves.length ∧
    centerFieldNext.mWaveQueues.length = centerFieldNext.mStormyWaves.length ∧
    centerFieldNext.mStormyWaves.length = (centerField ℚ).mStormyWaves.length ∧
    ∀ (i : Nat) (stormy : ofPolyline ℚ), centerFieldNext.mStormyWaves[i]? = some stormy →
      ∃ calm row0 : ofPolyline ℚ, centerFieldNext.mCalmWaves[i]? = some calm ∧
        (centerField ℚ).mStormyWaves[i]? = some row0 ∧
        calm.length = stormy.length ∧ stormy.length = row0.length) := by
  have h0 : setupWith defaultParams 2 2 () 1 4 = .ok (centerField ℚ) := by
    have h21 : ((2 : Int) >>> (1 : Nat)) = 1 := by decide
    simp only [setupWith, addRows, addColumns, h21, bind, Except.bind]
    norm_num [centerField, oneRow, defaultParams, List.modifyLast, List.modifyLast.go, h21]
  have h1 : updates [(quietWorld toyLibm 0 1 0 0, 0)] (centerField ℚ) = .ok centerFieldNext := by
    have hocc : waveOccurrence (quietWorld toyLibm 0 1 0 0) 0 (centerField ℚ)
        = .ok (centerField ℚ) := rfl
    have h21 : ((2 : Int) >>> (1 : Nat)) = 1 := by decide
    simp only [updates, bind, Except.bind]
    rw [update_ok _ 0 (centerField ℚ) _ ⟨rfl, rfl⟩ hocc]
    simp [centerField, centerFieldNext, oneRow, rowsAfter, newStormy, newCalm, doubleBuffered,
      damped, smoothed, edgeValue, edgeSample, queueAfterRow, engineAfterRow, quietWorld,
      envelope, toyLibm, defaultParams, h21]
    norm_num
  exact ⟨h0, h1, row_lengths_fixed_by_setup defaultParams 2 2 () 1 4 (centerField ℚ) h0
    [(quietWorld toyLibm 0 1 0 0, 0)] centerFieldNext h1⟩

/-! ## C19: smoothing never overshoots -/

section Blend
variable {α : Type} [LinearOrderedField α]

/-- A blend with a weight in `[0, 1]` lies between its two arguments. -/
theorem blend_between (a b m : α) (h0 : 0 ≤ m) (h1 : m ≤ 1) :
    min b a ≤ a * m + b * (1 - m) ∧ a * m + b * (1 - m) ≤ max b a := by
  rcases le_total a b with h | h
  · rw [min_eq_right h, max_eq_left h]
    constructor <;> nlinarith
  · rw [min_eq_left h, max_eq_right h]
    constructor <;> nlinarith

/-- A blend with a weight in `[0, 1]` is no larger in absolute value than the larger of its
two arguments. -/
theorem abs_blend_le (a b m : α) (h0 : 0 ≤ m) (h1 : m ≤ 1) :
    |a * m + b * (1 - m)| ≤ max |b| |a| := by
  have h := blend_between a b m h0 h1
  rw [abs_le]
  constructor
  · have h2 : -max |b| |a| ≤ min b a := by
      rw [le_min_iff]
      exact ⟨(neg_le_neg (le_max_left _ _)).trans (neg_abs_le b),
        (neg_le_neg (le_max_right _ _)).trans (neg_abs_le a)⟩
    exact h2.trans h.1
  · exact h.2.trans (max_le_max (le_abs_self b) (le_abs_self a))

end Blend

section ClaimOvershoot
variable {σ α : Type} [LinearOrderedField α] [FloorSemiring α]

/-- C19. With `0 ≤ waveMomentum ≤ 1` and a noise function with values in `[-1, 1]`, on a
well-formed field whose wave occurrence loop returns, one `update` leaves every column `j > 0`
of every row with `|new[j]| ≤ max(|old[j-1]|, |old[j]|) + |perlinNoiseMagnitude|`; when
`perlinNoiseMagnitude = 0`, `new[j]` lies between `min(old[j-1], old[j])` and
`max(old[j-1], old[j])`. Here `old` is the row's stormy polyline before the update. -/
theorem smoothing_never_overshoots (W : World σ α) (fuel : Nat)
    (s s1 : UnknownPleasures σ α) (hwf : WellFormed s)
    (hocc : waveOccurrence W fuel s = .ok s1)
    (hm0 : 0 ≤ s.mParams.waveMomentum) (hm1 : s.mParams.waveMomentum ≤ 1)
    (hnoise : ∀ x z t : α, |W.ofSignedNoise x z t| ≤ 1) :
    ∃ s2, update W fuel s = .ok s2 ∧
      ∀ (i : Nat) (old : ofPolyline α), s.mStormyWaves[i]? = some old →
        ∃ new : ofPolyline α, s2.mStormyWaves[i]? = some new ∧
          ∀ (j : Nat) (_ : 0 < j) (_ : j < old.length),
            ∃ v : Vec3 α, new[j]? = some v ∧
              |v.y| ≤ max |old[j - 1].y| |old[j].y| + |s.mParams.perlinNoiseMagnitude| ∧
              (s.mParams.perlinNoiseMagnitude = 0 →
                min old[j - 1].y old[j].y ≤ v.y ∧ v.y ≤ max old[j - 1].y old[j].y) := by
  refine ⟨_, update_ok W fuel s s1 hwf hocc, ?_⟩
  intro i old hS
  obtain ⟨e, waveQueue, h1⟩ :=
    update_row_stormy W fuel s _ hwf (update_ok W fuel s s1 hwf hocc) i old hS
  refine ⟨_, h1, ?_⟩
  intro j hj0 hj
  obtain ⟨k, rfl⟩ : ∃ k, j = k + 1 := ⟨j - 1, by omega⟩
  refine ⟨_, getElem?_doubleBuffered_succ W s.mParams _ old k old[k + 1] old[k]
    (List.getElem?_eq_getElem hj) (List.getElem?_eq_getElem (by omega)), ?_, ?_⟩
  · simp only [smoothed, Nat.add_sub_cancel]
    refine (abs_add _ _).trans (add_le_add (abs_blend_le _ _ _ hm0 hm1) ?_)
    rw [abs_mul]
    exact mul_le_of_le_one_left (abs_nonneg _) (hnoise _ _ _)
  · intro h0
    simp only [smoothed, Nat.add_sub_cancel, h0, mul_zero, add_zero]
    exact blend_between _ _ _ hm0 hm1

end ClaimOvershoot

/-- C19, witness: the sample field (`waveMomentum = 0.01`) in the sample world, whose noise
is constantly 1. -/
theorem smoothing_never_overshoots_witness :
    WellFormed sampleField ∧ waveOccurrence sampleWorld 0 sampleField = .ok sampleField ∧
    0 ≤ sampleField.mParams.waveMomentum ∧ sampleField.mParams.waveMomentum ≤ 1 ∧
    (∀ x z t : ℚ, |sampleWorld.ofSignedNoise x z t| ≤ 1) ∧
    ∃ s2, update sampleWorld 0 sampleField = .ok s2 ∧
      ∀ (i : Nat) (old : ofPolyline ℚ), sampleField.mStormyWaves[i]? = some old →
        ∃ new : ofPolyline ℚ, s2.mStormyWaves[i]? = some new ∧
          ∀ (j : Nat) (_ : 0 < j) (_ : j < old.length),
            ∃ v : Vec3 ℚ, new[j]? = some v ∧
              |v.y| ≤ max |old[j - 1].y| |old[j].y|
                + |sampleField.mParams.perlinNoiseMagnitude| ∧
              (sampleField.mParams.perlinNoiseMagnitude = 0 →
                min old[j - 1].y old[j].y ≤ v.y ∧ v.y ≤ max old[j - 1].y old[j].y) :=
  have hm0 : (0 : ℚ) ≤ sampleField.mParams.waveMomentum := by
    norm_num [sampleField, oneRow, defaultParams]
  have hm1 : sampleField.mParams.waveMomentum ≤ 1 := by
    norm_num [sampleField, oneRow, defaultParams]
  have hn : ∀ x z t : ℚ, |sampleWorld.ofSignedNoise x z t| ≤ 1 := by
    intro x z t
    simp [sampleWorld, quietWorld]
  ⟨⟨rfl, rfl⟩, rfl, hm0, hm1, hn,
    smoothing_never_overshoots sampleWorld 0 sampleField sampleField ⟨rfl, rfl⟩ rfl hm0 hm1 hn⟩

/-! ## C18: damping never amplifies and never flips the sign -/

section EnvelopeRange

/-- With the exact real `cos`, `pow` and `π` and a non-negative `calmWaveLevel`, the envelope
lies in `[0, 1]`. -/
theorem envelope_mem_unit (L : Libm ℝ) (hL : IsExact L) (mWidth : Int) (c x : ℝ) (hc : 0 ≤ c) :
    0 ≤ envelope L mWidth c x ∧ envelope L mWidth c x ≤ 1 := by
  obtain ⟨h1, h2, h3⟩ := hL
  have hb0 : 0 ≤ (Real.cos (x * Real.pi / ((mWidth >>> (1 : Nat) : Int) : ℝ)) + 1) * 0.5 := by
    have := Real.neg_one_le_cos (x * Real.pi / ((mWidth >>> (1 : Nat) : Int) : ℝ))
    norm_num
    linarith
  have hb1 : (Real.cos (x * Real.pi / ((mWidth >>> (1 : Nat) : Int) : ℝ)) + 1) * 0.5 ≤ 1 := by
    have := Real.cos_le_one (x * Real.pi / ((mWidth >>> (1 : Nat) : Int) : ℝ))
    norm_num
    linarith
  simp only [envelope, h1, h2, h3]
  exact ⟨Real.rpow_nonneg hb0 c, Real.rpow_le_one hb0 hb1 hc⟩

/-- A height multiplied by a factor in `[0, 1]` is no larger in absolute value and, unless the
product is 0, has the sign of the height. -/
theorem damped_height (y f : ℝ) (h0 : 0 ≤ f) (h1 : f ≤ 1) :
    |y * f| ≤ |y| ∧ (y * f = 0 ∨ (0 < y * f ∧ 0 < y) ∨ (y * f < 0 ∧ y < 0)) := by
  constructor
  · rw [abs_mul, abs_of_nonneg h0]
    exact mul_le_of_le_one_right (abs_nonneg y) h1
  · rcases lt_trichotomy y 0 with hy | hy | hy
    · rcases h0.lt_or_eq with hf | hf
      · exact Or.inr (Or.inr ⟨mul_neg_of_neg_of_pos hy hf, hy⟩)
      · exact Or.inl (by rw [← hf, mul_zero])
    · exact Or.inl (by rw [hy, zero_mul])
    · rcases h0.lt_or_eq with hf | hf
      · exact Or.inr (Or.inl ⟨mul_pos hy hf, hy⟩)
      · exact Or.inl (by rw [← hf, mul_zero])

end EnvelopeRange

section ClaimDamping
variable {σ : Type}

/-- C18. With the exact real `cos`, `pow` and `π`, `calmWaveLevel ≥ 0` and a half width
`mWidth >> 1` that is not 0, the envelope
`pow((cos(x * M_PI / (mWidth >> 1)) + 1) / 2, calmWaveLevel)` lies in `[0, 1]` for every `x`,
and after an `update` of a well-formed field (whose wave occurrence loop returns) every
column has `|calm| ≤ |stormy|` and a calm height that is 0 or has the sign of the stormy
height written in this update. -/
theorem damping_never_amplifies (W : World σ ℝ) (fuel : Nat) (s s1 : UnknownPleasures σ ℝ)
    (hL : IsExact W.libm) (hwf : WellFormed s) (hocc : waveOccurrence W fuel s = .ok s1)
    (hc : 0 ≤ s.mParams.calmWaveLevel) (_hw : s.mWidth >>> (1 : Nat) ≠ 0) :
    (∀ x : ℝ,
      envelope W.libm s.mWidth s.mParams.calmWaveLevel x
        = ((Real.cos (x * Real.pi / ((s.mWidth >>> (1 : Nat) : Int) : ℝ)) + 1) / 2)
            ^ s.mParams.calmWaveLevel ∧
      0 ≤ envelope W.libm s.mWidth s.mParams.calmWaveLevel x ∧
      envelope W.libm s.mWidth s.mParams.calmWaveLevel x ≤ 1) ∧
    ∃ s2, update W fuel s = .ok s2 ∧
      ∀ (i : Nat) (stormy : ofPolyline ℝ), s2.mStormyWaves[i]? = some stormy →
        ∃ calm : ofPolyline ℝ, s2.mCalmWaves[i]? = some calm ∧
          ∀ (j : Nat) (p : Vec3 ℝ), stormy[j]? = some p →
            ∃ c : Vec3 ℝ, calm[j]? = some c ∧ |c.y| ≤ |p.y| ∧
              (c.y = 0 ∨ (0 < c.y ∧ 0 < p.y) ∨ (c.y < 0 ∧ p.y < 0)) := by
  have henv := fun x => envelope_mem_unit W.libm hL s.mWidth s.mParams.calmWaveLevel x hc
  refine ⟨fun x => ⟨?_, henv x⟩, _, update_ok W fuel s s1 hwf hocc, ?_⟩
  · rw [envelope_eq, hL.1, hL.2.1, hL.2.2]
  · intro i stormy hS
    obtain ⟨calm, h1, -, h3⟩ :=
      update_row_calm W fuel s _ hwf (update_ok W fuel s s1 hwf hocc) i stormy hS
    refine ⟨calm, h1, ?_⟩
    intro j p hp
    obtain ⟨c, hc1, hc2⟩ := h3 j p hp
    have := damped_height p.y _ (henv p.x).1 (henv p.x).2
    rw [← hc2] at this
    exact ⟨c, hc1, this⟩

end ClaimDamping

/-- C18, witness: the field `setup` builds for width 2, with `calmWaveLevel = 3`. -/
theorem damping_never_amplifies_witness :
    IsExact (quietWorld ⟨Real.cos, fun x y => x ^ y, Real.pi⟩ 0 1 0 0).libm ∧
    WellFormed (centerField ℝ) ∧
    waveOccurrence (quietWorld ⟨Real.cos, fun x y => x ^ y, Real.pi⟩ 0 1 0 0) 0 (centerField ℝ)
      = .ok (centerField ℝ) ∧
    0 ≤ (centerField ℝ).mParams.calmWaveLevel ∧ (centerField ℝ).mWidth >>> (1 : Nat) ≠ 0 ∧
    ((∀ x : ℝ,
      envelope (quietWorld ⟨Real.cos, fun x y => x ^ y, Real.pi⟩ 0 1 0 0).libm
          (centerField ℝ).mWidth (centerField ℝ).mParams.calmWaveLevel x
        = ((Real.cos (x * Real.pi / (((centerField ℝ).mWidth >>> (1 : Nat) : Int) : ℝ)) + 1) / 2)
            ^ (centerField ℝ).mParams.calmWaveLevel ∧
      0 ≤ envelope (quietWorld ⟨Real.cos, fun x y => x ^ y, Real.pi⟩ 0 1 0 0).libm
          (centerField ℝ).mWidth (centerField ℝ).mParams.calmWaveLevel x ∧
      envelope (quietWorld ⟨Real.cos, fun x y => x ^ y, Real.pi⟩ 0 1 0 0).libm
          (centerField ℝ).mWidth (centerField ℝ).mParams.calmWaveLevel x ≤ 1) ∧
    ∃ s2, update (quietWorld ⟨Real.cos, fun x y => x ^ y, Real.pi⟩ 0 1 0 0) 0 (centerField ℝ)
        = .ok s2 ∧
      ∀ (i : Nat) (stormy : ofPolyline ℝ), s2.mStormyWaves[i]? = some stormy →
        ∃ calm : ofPolyline ℝ, s2.mCalmWaves[i]? = some calm ∧
          ∀ (j : Nat) (p : Vec3 ℝ), stormy[j]? = some p →
            ∃ c : Vec3 ℝ, calm[j]? = some c ∧ |c.y| ≤ |p.y| ∧
              (c.y = 0 ∨ (0 < c.y ∧ 0 < p.y) ∨ (c.y < 0 ∧ p.y < 0))) :=
  ⟨⟨rfl, rfl, rfl⟩, ⟨rfl, rfl⟩, rfl, by simp [centerField, oneRow, defaultParams], by decide,
    damping_never_amplifies (quietWorld ⟨Real.cos, fun x y => x ^ y, Real.pi⟩ 0 1 0 0) 0
      (centerField ℝ) (centerField ℝ) ⟨rfl, rfl, rfl⟩ ⟨rfl, rfl⟩ rfl
      (by simp [centerField, oneRow, defaultParams]) (by decide)⟩

/-! ## C13: with momentum 1 and no noise the columns `j > 0` stall -/

section NoWave
variable {σ α : Type} [LinearOrderedField α] [FloorSemiring α]

/-- When no wave occurs, the wave occurrence loop returns the queues as they are. -/
theorem occurAll_of_noWave (R : Rng σ α) (P : Params α) (fuel : Nat) (queues : List (List α)) :
    ∀ e : σ, noWave R P queues e = true →
      occurAll R P fuel queues e = .ok (queues, engineAfterNoWave R P queues e) := by
  induction queues with
  | nil => intro e _; rfl
  | cons q queues ih =>
    intro e h
    simp only [noWave, Bool.and_eq_true, Bool.not_eq_true', ] at h
    simp only [occurAll, occur, h.1, Bool.false_eq_true, if_false, bind, Except.bind, pure,
      Except.pure, ih _ h.2, engineAfterNoWave]

theorem waveOccurrence_of_noWave (W : World σ α) (fuel : Nat) (s : UnknownPleasures σ α)
    (h : noWave W.rng s.mParams s.mWaveQueues s.mEngine = true) :
    waveOccurrence W fuel s
      = .ok { s with mEngine := engineAfterNoWave W.rng s.mParams s.mWaveQueues s.mEngine } := by
  simp only [waveOccurrence, occurAll_of_noWave W.rng s.mParams fuel _ _ h, bind, Except.bind,
    pure, Except.pure]

/-- `update` changes neither the configuration nor the parameters. -/
theorem update_frame (W : World σ α) (fuel : Nat) (s s2 : UnknownPleasures σ α)
    (hwf : WellFormed s) (h : update W fuel s = .ok s2) :
    s2.mWidth = s.mWidth ∧ s2.mDepth = s.mDepth ∧ s2.mParams = s.mParams := by
  obtain ⟨s1, hocc⟩ := waveOccurrence_of_update W fuel s s2 h
  rw [update_ok W fuel s s1 hwf hocc, Except.ok.injEq] at h
  subst h
  obtain ⟨h1, h2, h3, -, -, -⟩ := waveOccurrence_frame W fuel s s1 hocc
  exact ⟨h1, h2, h3⟩

/-- With `waveMomentum = 1` and `perlinNoiseMagnitude = 0`, one `update` leaves every vertex
at a column `j > 0` as it was. -/
theorem update_stalls (W : World σ α) (fuel : Nat) (s s2 : UnknownPleasures σ α)
    (hwf : WellFormed s) (h : update W fuel s = .ok s2)
    (hm : s.mParams.waveMomentum = 1) (hg : s.mParams.perlinNoiseMagnitude = 0)
    (i : Nat) (old : ofPolyline α) (hS : s.mStormyWaves[i]? = some old) :
    ∃ new : ofPolyline α, s2.mStormyWaves[i]? = some new ∧
      ∀ j : Nat, 0 < j → new[j]? = old[j]? := by
  obtain ⟨e, waveQueue, h1⟩ := update_row_stormy W fuel s s2 hwf h i old hS
  refine ⟨_, h1, ?_⟩
  intro j hj0
  obtain ⟨k, rfl⟩ : ∃ k, j = k + 1 := ⟨j - 1, by omega⟩
  by_cases hj : k + 1 < old.length
  · have hv : (newStormy W s.mParams e waveQueue old)[k + 1]? = some _ :=
      getElem?_doubleBuffered_succ W s.mParams _ old k old[k + 1] old[k]
        (List.getElem?_eq_getElem hj) (List.getElem?_eq_getElem (by omega))
    rw [hv, List.getElem?_eq_getElem hj]
    simp [smoothed, hm, hg]
  · rw [List.getElem?_eq_none (by simpa [newStormy, length_doubleBuffered] using hj),
      List.getElem?_eq_none (by omega)]

/-- C13. With `perlinNoiseMagnitude = 0` and `waveMomentum = 1`, any number of consecutive
updates of a well-formed field on which no wave occurs all return, and afterwards every row
has at every column `j > 0` the vertex, so the stormy height, it had before them. -/
theorem stall_under_unit_momentum (ticks : List (World σ α × Nat)) :
    ∀ (s : UnknownPleasures σ α), WellFormed s → s.mParams.waveMomentum = 1 →
      s.mParams.perlinNoiseMagnitude = 0 → NoWaveRun ticks s →
      ∃ s2, updates ticks s = .ok s2 ∧
        ∀ (i : Nat) (old : ofPolyline α), s.mStormyWaves[i]? = some old →
          ∃ new : ofPolyline α, s2.mStormyWaves[i]? = some new ∧
            ∀ j : Nat, 0 < j → new[j]? = old[j]? ∧
              (new[j]?).map Vec3.y = (old[j]?).map Vec3.y := by
  induction ticks with
  | nil =>
    intro s _ _ _ _
    exact ⟨s, rfl, fun i old hS => ⟨old, hS, fun j _ => ⟨rfl, rfl⟩⟩⟩
  | cons tick ticks ih =>
    intro s hwf hm hg hq
    have hocc := waveOccurrence_of_noWave tick.1 tick.2 s hq.1
    have h1 := update_ok tick.1 tick.2 s _ hwf hocc
    obtain ⟨hwf1, -⟩ := update_shape tick.1 tick.2 s _ hwf h1
    obtain ⟨-, -, hP⟩ := update_frame tick.1 tick.2 s _ hwf h1
    obtain ⟨s2, h2, h3⟩ := ih _ hwf1 (by rw [hP]; exact hm) (by rw [hP]; exact hg)
      (hq.2 _ h1)
    refine ⟨s2, ?_, ?_⟩
    · simp only [updates, h1, bind, Except.bind]
      exact h2
    · intro i old hS
      obtain ⟨mid, hmid, hkeep⟩ := update_stalls tick.1 tick.2 s _ hwf h1 hm hg i old hS
      obtain ⟨new, hnew, hkeep2⟩ := h3 i mid hmid
      refine ⟨new, hnew, fun j hj => ?_⟩
      have := (hkeep2 j hj).1.trans (hkeep j hj)
      exact ⟨this, by rw [this]⟩

end NoWave

/-- A generator whose Bernoulli draws are all `false` lets no wave occur. -/
theorem noWave_of_never {σ α : Type} (R : Rng σ α) (P : Params α)
    (h : ∀ (p : α) (e : σ), (R.bernoulli p e).1 = false) (queues : List (List α)) :
    ∀ e : σ, noWave R P queues e = true := by
  induction queues with
  | nil => intro e; rfl
  | cons q queues ih => intro e; simp [noWave, h, ih]

section NoWaveQuiet
variable {σ α : Type} [LinearOrderedField α] [FloorSemiring α]

theorem noWaveRun_of_never (ticks : List (World σ α × Nat)) :
    (∀ tick ∈ ticks, ∀ (p : α) (e : σ), (tick.1.rng.bernoulli p e).1 = false) →
      ∀ s : UnknownPleasures σ α, NoWaveRun ticks s := by
  induction ticks with
  | nil => intro _ s; trivial
  | cons tick ticks ih =>
    intro h s
    exact ⟨noWave_of_never _ _ (h tick (List.mem_cons_self _ _)) _ _,
      fun s1 _ => ih (fun t ht => h t (List.mem_cons_of_mem _ ht)) s1⟩

end NoWaveQuiet

/-- C13, witness: two quiet updates of the sample field with `waveMomentum = 1` and
`perlinNoiseMagnitude = 0`. -/
theorem stall_under_unit_momentum_witness :
    WellFormed stallField ∧ stallField.mParams.waveMomentum = 1 ∧
    stallField.mParams.perlinNoiseMagnitude = 0 ∧
    NoWaveRun [(sampleWorld, 0), (sampleWorld, 0)] stallField ∧
    ∃ s2, updates [(sampleWorld, 0), (sampleWorld, 0)] stallField = .ok s2 ∧
      ∀ (i : Nat) (old : ofPolyline ℚ), stallField.mStormyWaves[i]? = some old →
        ∃ new : ofPolyline ℚ, s2.mStormyWaves[i]? = some new ∧
          ∀ j : Nat, 0 < j → new[j]? = old[j]? ∧
            (new[j]?).map Vec3.y = (old[j]?).map Vec3.y :=
  have hq : NoWaveRun [(sampleWorld, 0), (sampleWorld, 0)] stallField :=
    noWaveRun_of_never _ (by simp [sampleWorld, quietWorld]) _
  ⟨⟨rfl, rfl⟩, rfl, rfl, hq,
    stall_under_unit_momentum [(sampleWorld, 0), (sampleWorld, 0)] stallField ⟨rfl, rfl⟩ rfl rfl
      hq⟩

/-! ## C14: the rejection loop yields the first non-negative draw -/

section Rejection
variable {σ α : Type} [LinearOrderedField α]

/-- The rejection loop entered with draw number `m`: when it returns, it returns a draw
number `n` with `m ≤ n ≤ m + fuel` that is non-negative, and the draws `m, ..., n - 1` were
negative. -/
theorem redraw_spec (dist : σ → α × σ) (e : σ) (fuel : Nat) :
    ∀ (m : Nat) (r : α × σ),
      redraw dist fuel (drawSeq dist e m).1 (drawSeq dist e m).2 = .ok r →
      ∃ n, m ≤ n ∧ n ≤ m + fuel ∧ r = drawSeq dist e n ∧ 0 ≤ r.1 ∧
        ∀ k, m ≤ k → k < n → (drawSeq dist e k).1 < 0 := by
  induction fuel with
  | zero =>
    intro m r h
    simp only [redraw] at h
    split at h
    · exact absurd h (by simp)
    · rename_i hneg
      simp only [Except.ok.injEq] at h
      subst h
      exact ⟨m, le_refl m, le_refl m, rfl, not_lt.mp hneg, fun k h1 h2 => by omega⟩
  | succ fuel ih =>
    intro m r h
    simp only [redraw] at h
    split at h
    · rename_i hneg
      obtain ⟨n, h1, h2, h3, h4, h5⟩ := ih (m + 1) r h
      refine ⟨n, by omega, by omega, h3, h4, ?_⟩
      intro k hk1 hk2
      rcases Nat.eq_or_lt_of_le hk1 with hk | hk
      · exact hk ▸ hneg
      · exact h5 k hk hk2
    · rename_i hneg
      simp only [Except.ok.injEq] at h
      subst h
      exact ⟨m, le_refl m, by omega, rfl, not_lt.mp hneg, fun k h1 h2 => by omega⟩

/-- The rejection loop entered with draw number `m` returns when one of the draws
`m, ..., m + fuel` is non-negative. -/
theorem redraw_returns (dist : σ → α × σ) (e : σ) (fuel : Nat) :
    ∀ (m n : Nat), m ≤ n → n ≤ m + fuel → 0 ≤ (drawSeq dist e n).1 →
      ∃ r, redraw dist fuel (drawSeq dist e m).1 (drawSeq dist e m).2 = .ok r := by
  induction fuel with
  | zero =>
    intro m n h1 h2 h3
    have : n = m := by omega
    subst this
    exact ⟨((drawSeq dist e n).1, (drawSeq dist e n).2),
      by simp only [redraw, not_lt.mpr h3, if_false]⟩
  | succ fuel ih =>
    intro m n h1 h2 h3
    by_cases hneg : (drawSeq dist e m).1 < 0
    · have hmn : m ≠ n := fun h => absurd (h ▸ hneg) (not_lt.mpr h3)
      obtain ⟨r, hr⟩ := ih (m + 1) n (by omega) (by omega) h3
      exact ⟨r, by simp only [redraw, hneg, if_true]; exact hr⟩
    · exact ⟨((drawSeq dist e m).1, (drawSeq dist e m).2),
        by simp only [redraw, hneg, if_false]⟩

/-- With enough budget the sampling of lines 86-91 and 94-99 returns: it does when one of the
first `fuel + 1` draws is non-negative. -/
theorem sampleTruncated_returns (dist : σ → α × σ) (e : σ) (fuel n : Nat) (hn : n ≤ fuel)
    (h : 0 ≤ (drawSeq dist e n).1) : ∃ r, sampleTruncated dist fuel e = .ok r :=
  redraw_returns dist e fuel 0 n (Nat.zero_le n) (by omega) h

/-- C14. For every mean and standard deviation, when the sampling
`v = dist(mEngine); while (v < 0) v = dist(mEngine);` of the width or the height returns, the
value is non-negative and it is the first non-negative draw of the generator's sequence of
normal draws: it is draw number `n` and the draws `0, ..., n - 1` consumed before it were
negative. -/
theorem rejection_yields_first_nonneg (R : Rng σ α) (mean std : α) (fuel : Nat) (e : σ)
    (r : α × σ) (h : sampleTruncated (R.normal mean std) fuel e = .ok r) :
    0 ≤ r.1 ∧
      ∃ n, n ≤ fuel ∧ r = drawSeq (R.normal mean std) e n ∧
        ∀ k, k < n → (drawSeq (R.normal mean std) e k).1 < 0 := by
  obtain ⟨n, -, h2, h3, h4, h5⟩ := redraw_spec (R.normal mean std) e fuel 0 r h
  exact ⟨h4, n, by omega, h3, fun k hk => h5 k (Nat.zero_le k) hk⟩

end Rejection

/-- C14, witness: mean `-10` and standard deviation 5 on the counting generator, whose draws
are `-10, -5, 0, ...`: the loop returns draw number 2, the value 0. -/
theorem rejection_yields_first_nonneg_witness :
    sampleTruncated (countingRng.normal (-10) 5) 4 0 = .ok (0, 3) ∧
    ((0 : ℚ) ≤ ((0 : ℚ), 3).1 ∧
      ∃ n, n ≤ 4 ∧ ((0 : ℚ), 3) = drawSeq (countingRng.normal (-10) 5) 0 n ∧
        ∀ k, k < n → (drawSeq (countingRng.normal (-10) 5) 0 k).1 < 0) :=
  have h : sampleTruncated (countingRng.normal (-10) 5) 4 0 = .ok (0, 3) := by
    norm_num [sampleTruncated, redraw, countingRng]
  ⟨h, rejection_yields_first_nonneg countingRng (-10) 5 4 0 (0, 3) h⟩

/-! ## C11, C12: the shape of the pushed profile -/

section Triangle
variable {α : Type} [LinearOrderedField α] [FloorSemiring α]

/-- The rising loop from `i` on appends `height / width * k` for `k = i, ..., ⌈width⌉ - 1`. -/
theorem pushRising_eq (h w : α) (n : Nat) :
    ∀ (i : Nat) (q : List α), ⌈w⌉₊ - i = n →
      pushRising h w i q = q ++ (List.range' i n).map (fun k : Nat => h / w * (k : α)) := by
  induction n with
  | zero =>
    intro i q hn
    have hi : ¬ (i : α) < w := fun hlt => by
      have := Nat.lt_ceil.mpr hlt
      omega
    rw [pushRising, if_neg hi]
    simp
  | succ n ih =>
    intro i q hn
    have hi : (i : α) < w := Nat.lt_ceil.mp (by omega)
    rw [pushRising, if_pos hi, ih (i + 1) _ (by omega)]
    simp [List.range'_succ]

/-- The falling loop from `i` on appends `height / width * (width - k)` for
`k = i, ..., ⌈width⌉ - 1`. -/
theorem pushFalling_eq (h w : α) (n : Nat) :
    ∀ (i : Nat) (q : List α), ⌈w⌉₊ - i = n →
      pushFalling h w i q
        = q ++ (List.range' i n).map (fun k : Nat => h / w * (w - (k : α))) := by
  induction n with
  | zero =>
    intro i q hn
    have hi : ¬ (i : α) < w := fun hlt => by
      have := Nat.lt_ceil.mpr hlt
      omega
    rw [pushFalling, if_neg hi]
    simp
  | succ n ih =>
    intro i q hn
    have hi : (i : α) < w := Nat.lt_ceil.mp (by omega)
    rw [pushFalling, if_pos hi, ih (i + 1) _ (by omega)]
    simp [List.range'_succ]

/-- The pushed profile in closed form: `⌈width⌉` rising samples, the peak, `⌈width⌉` falling
samples. -/
theorem triangleWave_eq (h w : α) :
    triangleWave h w
      = (List.range ⌈w⌉₊).map (fun k : Nat => h / w * (k : α)) ++ [h]
        ++ (List.range ⌈w⌉₊).map (fun k : Nat => h / w * (w - (k : α))) := by
  rw [triangleWave, pushRising_eq h w ⌈w⌉₊ 0 [] (by omega),
    pushFalling_eq h w ⌈w⌉₊ 0 _ (by omega), List.range_eq_range']
  simp

theorem length_triangleWave (h w : α) : (triangleWave h w).length = 2 * ⌈w⌉₊ + 1 := by
  rw [triangleWave_eq]
  simp
  omega

/-- On an empty queue the interference loop does nothing: the new queue is the profile. -/
theorem pushWave_nil (w h : α) : pushWave w h [] = .ok (triangleWave h w) := by
  simp [pushWave, interfere]

end Triangle

section ClaimProfile
variable {α : Type} [LinearOrderedField α] [FloorSemiring α]

/-- C11 (amended). The step count of the pushed profile is the number of integers `i ≥ 0`
with `i < waveWidth`, the ceiling of the sampled width: for every sampled width `w` and
height `h` the profile pushed onto an empty queue has exactly `2 * ⌈w⌉ + 1` elements, which
is `2 * ⌊w⌋ + 1` when `w` is an integer; it is the single pulse `[h]` when `w = 0`, and it
has three elements, so it is not the single pulse, when `0 < w ≤ 1`. -/
theorem profile_length_is_ceil (w h : α) :
    pushWave w h [] = .ok (triangleWave h w) ∧
    (triangleWave h w).length = 2 * ⌈w⌉₊ + 1 ∧
    (∀ n : Nat, w = (n : α) → (triangleWave h w).length = 2 * ⌊w⌋₊ + 1) ∧
    (w = 0 → triangleWave h w = [h]) ∧
    (0 < w → w ≤ 1 → (triangleWave h w).length = 3 ∧ triangleWave h w ≠ [h]) := by
  refine ⟨pushWave_nil w h, length_triangleWave h w, ?_, ?_, ?_⟩
  · intro n hn
    rw [length_triangleWave, hn, Nat.ceil_natCast, Nat.floor_natCast]
  · intro h0
    rw [triangleWave_eq, h0]
    simp
  · intro h0 h1
    have hc : ⌈w⌉₊ = 1 := by
      apply le_antisymm
      · exact Nat.ceil_le.mpr (by simpa using h1)
      · exact Nat.one_le_iff_ne_zero.mpr (fun hz => absurd (Nat.ceil_eq_zero.mp hz) (not_le.mpr h0))
    have hlen : (triangleWave h w).length = 3 := by rw [length_triangleWave, hc]
    refine ⟨hlen, fun hp => ?_⟩
    rw [hp] at hlen
    simp at hlen

/-- C12. For every integer width `w ≥ 0` and every height `h ≥ 0`, the profile pushed onto an
empty queue has exactly `2w + 1` elements, its element at the midpoint index `w` is `h`, and
every element lies between 0 and `h`, so the midpoint is a maximum; for `w = 0` the profile
is `[h]`. -/
theorem profile_peaks_at_midpoint (w : Nat) (h : α) (hh : 0 ≤ h) :
    pushWave (w : α) h [] = .ok (triangleWave h (w : α)) ∧
    (triangleWave h (w : α)).length = 2 * w + 1 ∧
    (triangleWave h (w : α))[w]? = some h ∧
    (∀ x ∈ triangleWave h (w : α), 0 ≤ x ∧ x ≤ h) ∧
    triangleWave h ((0 : Nat) : α) = [h] := by
  refine ⟨pushWave_nil _ h, by rw [length_triangleWave, Nat.ceil_natCast], ?_, ?_, ?_⟩
  · rw [triangleWave_eq, Nat.ceil_natCast, List.append_assoc,
      List.getElem?_append_right (by simp)]
    simp
  · intro x hx
    rw [triangleWave_eq, Nat.ceil_natCast] at hx
    simp only [List.mem_append, List.mem_map, List.mem_range, List.mem_singleton] at hx
    rcases hx with (⟨k, hk, rfl⟩ | rfl) | ⟨k, hk, rfl⟩
    · have hw : (0 : α) < (w : α) := by exact_mod_cast (by omega : 0 < w)
      have hkw : (k : α) ≤ (w : α) := by exact_mod_cast hk.le
      have hk0 : (0 : α) ≤ (k : α) := Nat.cast_nonneg k
      constructor
      · exact mul_nonneg (div_nonneg hh hw.le) hk0
      · rw [div_mul_eq_mul_div, div_le_iff₀ hw]
        exact mul_le_mul_of_nonneg_left hkw hh
    · exact ⟨hh, le_refl x⟩
    · have hw : (0 : α) < (w : α) := by exact_mod_cast (by omega : 0 < w)
      have hkw : (k : α) ≤ (w : α) := by exact_mod_cast hk.le
      have hk0 : (0 : α) ≤ (k : α) := Nat.cast_nonneg k
      constructor
      · exact mul_nonneg (div_nonneg hh hw.le) (by linarith)
      · rw [div_mul_eq_mul_div, div_le_iff₀ hw]
        exact mul_le_mul_of_nonneg_left (by linarith) hh
  · rw [triangleWave_eq, Nat.cast_zero, Nat.ceil_zero]
    simp

end ClaimProfile

/-- C11, counterexample. For the sampled width `1/2` and height 6 the loops run once
(`0 < 0.5`): the pushed profile is `[0, 6, 6]`, three elements, not the `2 * ⌊1/2⌋ + 1 = 1`
element pulse `[6]`. -/
theorem profile_half_width_counterexample :
    (0 : ℚ) ≤ 1 / 2 ∧ ⌊(1 / 2 : ℚ)⌋₊ = 0 ∧
    pushWave (1 / 2 : ℚ) 6 [] = .ok [0, 6, 6] ∧
    ([0, 6, 6] : List ℚ).length ≠ 2 * ⌊(1 / 2 : ℚ)⌋₊ + 1 ∧
    pushWave (1 / 2 : ℚ) 6 [] ≠ .ok [6] := by
  have hf : ⌊(1 / 2 : ℚ)⌋₊ = 0 := Nat.floor_eq_zero.mpr (by norm_num)
  have hc : ⌈(1 / 2 : ℚ)⌉₊ = 1 := by
    rw [Nat.ceil_eq_iff (by norm_num)]
    norm_num
  have h : pushWave (1 / 2 : ℚ) 6 [] = .ok [0, 6, 6] := by
    rw [pushWave_nil, triangleWave_eq, hc]
    norm_num [List.range_succ]
  refine ⟨by norm_num, hf, h, by rw [hf]; decide, ?_⟩
  rw [h]
  simp

/-- C12, witness: width 3 and height 6. -/
theorem profile_peaks_at_midpoint_witness :
    (0 : ℚ) ≤ 6 ∧
    (pushWave ((3 : Nat) : ℚ) 6 [] = .ok (triangleWave 6 ((3 : Nat) : ℚ)) ∧
    (triangleWave (6 : ℚ) ((3 : Nat) : ℚ)).length = 2 * 3 + 1 ∧
    (triangleWave (6 : ℚ) ((3 : Nat) : ℚ))[3]? = some 6 ∧
    (∀ x ∈ triangleWave (6 : ℚ) ((3 : Nat) : ℚ), 0 ≤ x ∧ x ≤ 6) ∧
    triangleWave (6 : ℚ) ((0 : Nat) : ℚ) = [6]) :=
  ⟨by norm_num, profile_peaks_at_midpoint 3 6 (by norm_num)⟩

/-! ## C15: the number of rows and columns `setup` builds -/

section LoopCount
variable {α : Type} [LinearOrderedField α] [FloorSemiring α]

/-- A loop `for (x = ...; x < hi; x += d)` that has reached its bound has no iteration left. -/
theorem loopCount_done (x hi d : α) (hd : 0 < d) (h : ¬ x < hi) : ⌈(hi - x) / d⌉₊ = 0 :=
  Nat.ceil_eq_zero.mpr (div_nonpos_of_nonpos_of_nonneg (by linarith [not_lt.mp h]) hd.le)

/-- A loop `for (x = ...; x < hi; x += d)` below its bound has one more iteration left than
after the step. -/
theorem loopCount_step (x hi d : α) (hd : 0 < d) (h : x < hi) :
    ⌈(hi - (x + d)) / d⌉₊ + 1 = ⌈(hi - x) / d⌉₊ := by
  have e : (hi - x) / d = (hi - (x + d)) / d + 1 := by
    field_simp
    ring
  have hpos : 0 < (hi - x) / d := div_pos (by linarith) hd
  rcases le_or_lt 0 ((hi - (x + d)) / d) with hb | hb
  · rw [e, Nat.ceil_add_one hb]
  · have h0 : ⌈(hi - (x + d)) / d⌉₊ = 0 := Nat.ceil_eq_zero.mpr hb.le
    have h1 : ⌈(hi - x) / d⌉₊ = 1 := by
      apply le_antisymm
      · exact Nat.ceil_le.mpr (by rw [e]; simpa using hb.le)
      · exact Nat.ceil_pos.mpr hpos
    rw [h0, h1]

end LoopCount

section SetupCount
variable {σ α : Type} [LinearOrderedField α] [FloorSemiring α]

/-- The inner loop of `setup` with enough budget: it returns, touches only the last stormy and
the last calm polyline, and appends to each as many vertices as the loop has iterations. -/
theorem addColumns_ok (z : α) (fuel : Nat) :
    ∀ (x : α) (s : UnknownPleasures σ α) (L0 M0 : List Nat) (n m : Nat),
      0 < s.mParams.dx →
      ⌈(((s.mWidth >>> (1 : Nat) : Int) : α) - x) / s.mParams.dx⌉₊ ≤ fuel →
      s.mStormyWaves.map List.length = L0 ++ [n] →
      s.mCalmWaves.map List.length = M0 ++ [m] →
      ∃ s1, addColumns z fuel x s = .ok s1 ∧
        s1.mWidth = s.mWidth ∧ s1.mDepth = s.mDepth ∧ s1.mParams = s.mParams ∧
        s1.mWaveQueues = s.mWaveQueues ∧ s1.mEngine = s.mEngine ∧
        s1.mStormyWaves.map List.length
          = L0 ++ [n + ⌈(((s.mWidth >>> (1 : Nat) : Int) : α) - x) / s.mParams.dx⌉₊] ∧
        s1.mCalmWaves.map List.length
          = M0 ++ [m + ⌈(((s.mWidth >>> (1 : Nat) : Int) : α) - x) / s.mParams.dx⌉₊] := by
  induction fuel with
  | zero =>
    intro x s L0 M0 n m hdx hfuel hS hC
    have hx : ¬ x < ((s.mWidth >>> (1 : Nat) : Int) : α) := fun hlt => by
      have := loopCount_step x _ _ hdx hlt
      omega
    rw [loopCount_done _ _ _ hdx hx]
    exact ⟨s, by simp only [addColumns, hx, if_false], rfl, rfl, rfl, rfl, rfl, hS, hC⟩
  | succ fuel ih =>
    intro x s L0 M0 n m hdx hfuel hS hC
    by_cases hx : x < ((s.mWidth >>> (1 : Nat) : Int) : α)
    · have hstep := loopCount_step x _ _ hdx hx
      obtain ⟨s1, h1, h2, h3, h4, h5, h6, h7, h8⟩ := ih (x + s.mParams.dx)
        { s with
          mStormyWaves := s.mStormyWaves.modifyLast (fun wave => wave ++ [⟨x, 0, z⟩])
          mCalmWaves := s.mCalmWaves.modifyLast (fun wave => wave ++ [⟨x, 0, z⟩]) }
        L0 M0 (n + 1) (m + 1) hdx (by simp only; omega)
        (by simp only [map_length_modifyLast_append, hS, List.modifyLast_append_one])
        (by simp only [map_length_modifyLast_append, hC, List.modifyLast_append_one])
      refine ⟨s1, by simp only [addColumns, hx, if_true]; exact h1, h2, h3, h4, h5, h6, ?_, ?_⟩
      · rw [h7, ← hstep]
        simp only [List.append_cancel_left_eq, List.cons.injEq, and_true]
        omega
      · rw [h8, ← hstep]
        simp only [List.append_cancel_left_eq, List.cons.injEq, and_true]
        omega
    · rw [loopCount_done _ _ _ hdx hx]
      exact ⟨s, by simp only [addColumns, hx, if_false], rfl, rfl, rfl, rfl, rfl, hS, hC⟩

/-- The outer loop of `setup` with enough budget: it returns and appends as many rows as the
loop has iterations, each with a stormy and a calm polyline of as many vertices as the inner
loop has iterations, and an empty queue. -/
theorem addRows_ok (colFuel fuel : Nat) :
    ∀ (z : α) (s : UnknownPleasures σ α),
      0 < s.mParams.dx → 0 < s.mParams.dy →
      ⌈(((s.mWidth >>> (1 : Nat) : Int) : α) - ((-(s.mWidth >>> (1 : Nat)) : Int) : α))
        / s.mParams.dx⌉₊ ≤ colFuel →
      ⌈(((s.mDepth >>> (1 : Nat) : Int) : α) - z) / s.mParams.dy⌉₊ ≤ fuel →
      ∃ s1, addRows colFuel fuel z s = .ok s1 ∧
        s1.mStormyWaves.map List.length = s.mStormyWaves.map List.length
          ++ List.replicate ⌈(((s.mDepth >>> (1 : Nat) : Int) : α) - z) / s.mParams.dy⌉₊
              ⌈(((s.mWidth >>> (1 : Nat) : Int) : α)
                - ((-(s.mWidth >>> (1 : Nat)) : Int) : α)) / s.mParams.dx⌉₊ ∧
        s1.mCalmWaves.map List.length = s.mCalmWaves.map List.length
          ++ List.replicate ⌈(((s.mDepth >>> (1 : Nat) : Int) : α) - z) / s.mParams.dy⌉₊
              ⌈(((s.mWidth >>> (1 : Nat) : Int) : α)
                - ((-(s.mWidth >>> (1 : Nat)) : Int) : α)) / s.mParams.dx⌉₊ ∧
        s1.mWaveQueues.length = s.mWaveQueues.length
          + ⌈(((s.mDepth >>> (1 : Nat) : Int) : α) - z) / s.mParams.dy⌉₊ := by
  induction fuel with
  | zero =>
    intro z s hdx hdy hcol hfuel
    have hz : ¬ z < ((s.mDepth >>> (1 : Nat) : Int) : α) := fun hlt => by
      have := loopCount_step z _ _ hdy hlt
      omega
    rw [loopCount_done _ _ _ hdy hz]
    exact ⟨s, by simp only [addRows, hz, if_false], by simp, by simp, by simp⟩
  | succ fuel ih =>
    intro z s hdx hdy hcol hfuel
    by_cases hz : z < ((s.mDepth >>> (1 : Nat) : Int) : α)
    · have hstep := loopCount_step z _ _ hdy hz
      obtain ⟨s2, h1, h2, h3, h4, h5, h6, h7, h8⟩ := addColumns_ok z colFuel
        (((-(s.mWidth >>> (1 : Nat)) : Int) : α))
        { s with
          mStormyWaves := s.mStormyWaves ++ [[]]
          mCalmWaves := s.mCalmWaves ++ [[]]
          mWaveQueues := s.mWaveQueues ++ [[]] }
        (s.mStormyWaves.map List.length) (s.mCalmWaves.map List.length) 0 0 hdx hcol
        (by simp) (by simp)
      obtain ⟨s1, k1, k2, k3, k4⟩ := ih (z + s2.mParams.dy) s2 (by rw [h4]; exact hdx)
        (by rw [h4]; exact hdy) (by rw [h2, h4]; exact hcol)
        (by rw [h3, h4]; simp only; omega)
      refine ⟨s1, ?_, ?_, ?_, ?_⟩
      · simp only [addRows, hz, if_true, bind, Except.bind, h1]
        exact k1
      · rw [k2, h7, h2, h3, h4, ← hstep]
        simp [List.replicate_succ]
      · rw [k3, h8, h2, h3, h4, ← hstep]
        simp [List.replicate_succ]
      · rw [k4, h5, h3, h4, ← hstep]
        simp only [List.length_append, List.length_singleton]
        omega
    · rw [loopCount_done _ _ _ hdy hz]
      exact ⟨s, by simp only [addRows, hz, if_false], by simp, by simp, by simp⟩

end SetupCount

section ClaimSetupCount
variable {σ α : Type} [LinearOrderedField α] [FloorSemiring α]

/-- C15 (amended). With column spacing `dx > 0`, row spacing `dy > 0` and enough loop budget,
`setup` returns a field with `⌈2 * (mDepth >> 1) / dy⌉` rows (stormy polylines, calm polylines
and queues), each row with `⌈2 * (mWidth >> 1) / dx⌉` columns. These counts are `D / dy` and
`W / dx` when the extent is even and the quotient is an integer. -/
theorem setup_row_and_column_counts (P : Params α) (mWidth mDepth : Int) (e : σ)
    (rowFuel colFuel : Nat) (hdx : 0 < P.dx) (hdy : 0 < P.dy)
    (hrow : ⌈2 * ((mDepth >>> (1 : Nat) : Int) : α) / P.dy⌉₊ ≤ rowFuel)
    (hcol : ⌈2 * ((mWidth >>> (1 : Nat) : Int) : α) / P.dx⌉₊ ≤ colFuel) :
    (∃ s0 : UnknownPleasures σ α, setupWith P mWidth mDepth e rowFuel colFuel = .ok s0 ∧
      s0.mStormyWaves.length = ⌈2 * ((mDepth >>> (1 : Nat) : Int) : α) / P.dy⌉₊ ∧
      s0.mCalmWaves.length = ⌈2 * ((mDepth >>> (1 : Nat) : Int) : α) / P.dy⌉₊ ∧
      s0.mWaveQueues.length = ⌈2 * ((mDepth >>> (1 : Nat) : Int) : α) / P.dy⌉₊ ∧
      (∀ row ∈ s0.mStormyWaves,
        row.length = ⌈2 * ((mWidth >>> (1 : Nat) : Int) : α) / P.dx⌉₊) ∧
      (∀ row ∈ s0.mCalmWaves,
        row.length = ⌈2 * ((mWidth >>> (1 : Nat) : Int) : α) / P.dx⌉₊)) ∧
    (∀ n : Nat, mDepth % 2 = 0 → (mDepth : α) / P.dy = (n : α) →
      ⌈2 * ((mDepth >>> (1 : Nat) : Int) : α) / P.dy⌉₊ = n) ∧
    (∀ n : Nat, mWidth % 2 = 0 → (mWidth : α) / P.dx = (n : α) →
      ⌈2 * ((mWidth >>> (1 : Nat) : Int) : α) / P.dx⌉₊ = n) := by
  have e1 : ∀ k : Int, ((k : α) - ((-k : Int) : α)) = 2 * (k : α) := by
    intro k
    push_cast
    ring
  refine ⟨?_, ?_, ?_⟩
  · obtain ⟨s0, h1, h2, h3, h4⟩ := addRows_ok (σ := σ) colFuel rowFuel
      (((-(mDepth >>> (1 : Nat)) : Int) : α))
      { mWidth := mWidth, mDepth := mDepth, mParams := P, mStormyWaves := [],
        mCalmWaves := [], mWaveQueues := [], mEngine := e }
      hdx hdy (by simp only [e1]; exact hcol) (by simp only [e1]; exact hrow)
    simp only [e1, List.map_nil, List.nil_append, List.length_nil, Nat.zero_add] at h2 h3 h4
    refine ⟨s0, h1, ?_, ?_, h4, ?_, ?_⟩
    · simpa using congrArg List.length h2
    · simpa using congrArg List.length h3
    · intro row hrow
      have : row.length ∈ s0.mStormyWaves.map List.length := List.mem_map_of_mem _ hrow
      rw [h2] at this
      exact List.eq_of_mem_replicate this
    · intro row hrow
      have : row.length ∈ s0.mCalmWaves.map List.length := List.mem_map_of_mem _ hrow
      rw [h3] at this
      exact List.eq_of_mem_replicate this
  · intro n heven hq
    rw [cast_shiftRight_one_of_even mDepth heven, mul_div_cancel₀ _ (two_ne_zero), hq,
      Nat.ceil_natCast]
  · intro n heven hq
    rw [cast_shiftRight_one_of_even mWidth heven, mul_div_cancel₀ _ (two_ne_zero), hq,
      Nat.ceil_natCast]

end ClaimSetupCount

/-- C15, counterexample. For width 3, depth 2 and the default spacings `dx = 0.5`, `dy = 2`,
`setup` builds one row of four columns (`x = -1, -0.5, 0, 0.5`), not `W / dx = 6` columns. -/
theorem setup_odd_width_counterexample :
    (0 : ℚ) < (defaultParams : Params ℚ).dx ∧ (0 : ℚ) < (defaultParams : Params ℚ).dy ∧
    setup 3 2 () 1 4 = .ok oddSetupField ∧
    oddSetupField.mStormyWaves.map List.length = [4] ∧
    ((3 : Int) : ℚ) / (defaultParams : Params ℚ).dx = 6 ∧
    ((2 : Int) : ℚ) / (defaultParams : Params ℚ).dy = 1 := by
  have h31 : ((3 : Int) >>> (1 : Nat)) = 1 := by decide
  have h21 : ((2 : Int) >>> (1 : Nat)) = 1 := by decide
  refine ⟨by norm_num [defaultParams], by norm_num [defaultParams], ?_, rfl,
    by norm_num [defaultParams], by norm_num [defaultParams]⟩
  simp only [setup, setupWith, addRows, addColumns, h31, h21, bind, Except.bind]
  norm_num [oddSetupField, oneRow, defaultParams, List.modifyLast, List.modifyLast.go, h31, h21]

/-- C15, witness: width 2 and depth 2 with the default spacings, row budget 1 and column
budget 4. -/
theorem setup_row_and_column_counts_witness :
    (0 : ℚ) < (defaultParams : Params ℚ).dx ∧ (0 : ℚ) < (defaultParams : Params ℚ).dy ∧
    ⌈2 * (((2 : Int) >>> (1 : Nat) : Int) : ℚ) / (defaultParams : Params ℚ).dy⌉₊ ≤ 1 ∧
    ⌈2 * (((2 : Int) >>> (1 : Nat) : Int) : ℚ) / (defaultParams : Params ℚ).dx⌉₊ ≤ 4 ∧
    ((∃ s0 : UnknownPleasures Unit ℚ, setupWith defaultParams 2 2 () 1 4 = .ok s0 ∧
      s0.mStormyWaves.length
        = ⌈2 * (((2 : Int) >>> (1 : Nat) : Int) : ℚ) / (defaultParams : Params ℚ).dy⌉₊ ∧
      s0.mCalmWaves.length
        = ⌈2 * (((2 : Int) >>> (1 : Nat) : Int) : ℚ) / (defaultParams : Params ℚ).dy⌉₊ ∧
      s0.mWaveQueues.length
        = ⌈2 * (((2 : Int) >>> (1 : Nat) : Int) : ℚ) / (defaultParams : Params ℚ).dy⌉₊ ∧
      (∀ row ∈ s0.mStormyWaves, row.length
        = ⌈2 * (((2 : Int) >>> (1 : Nat) : Int) : ℚ) / (defaultParams : Params ℚ).dx⌉₊) ∧
      (∀ row ∈ s0.mCalmWaves, row.length
        = ⌈2 * (((2 : Int) >>> (1 : Nat) : Int) : ℚ) / (defaultParams : Params ℚ).dx⌉₊)) ∧
    (∀ n : Nat, (2 : Int) % 2 = 0 → ((2 : Int) : ℚ) / (defaultParams : Params ℚ).dy = (n : ℚ) →
      ⌈2 * (((2 : Int) >>> (1 : Nat) : Int) : ℚ) / (defaultParams : Params ℚ).dy⌉₊ = n) ∧
    (∀ n : Nat, (2 : Int) % 2 = 0 → ((2 : Int) : ℚ) / (defaultParams : Params ℚ).dx = (n : ℚ) →
      ⌈2 * (((2 : Int) >>> (1 : Nat) : Int) : ℚ) / (defaultParams : Params ℚ).dx⌉₊ = n)) :=
  have h21 : ((2 : Int) >>> (1 : Nat)) = 1 := by decide
  have hdx : (0 : ℚ) < (defaultParams : Params ℚ).dx := by norm_num [defaultParams]
  have hdy : (0 : ℚ) < (defaultParams : Params ℚ).dy := by norm_num [defaultParams]
  have hrow : ⌈2 * (((2 : Int) >>> (1 : Nat) : Int) : ℚ) / (defaultParams : Params ℚ).dy⌉₊
      ≤ 1 := Nat.ceil_le.mpr (by norm_num [defaultParams, h21])
  have hcol : ⌈2 * (((2 : Int) >>> (1 : Nat) : Int) : ℚ) / (defaultParams : Params ℚ).dx⌉₊
      ≤ 4 := Nat.ceil_le.mpr (by norm_num [defaultParams, h21])
  ⟨hdx, hdy, hrow, hcol,
    setup_row_and_column_counts defaultParams 2 2 () 1 4 hdx hdy hrow hcol⟩

/-! ## C17: a disturbance travels one column per update -/

section Shift
variable {σ α : Type} [LinearOrderedField α] [FloorSemiring α]

/-- The consecutive updates of a concatenation are those of the first part, then those of the
second. -/
theorem updates_append (a b : List (World σ α × Nat)) :
    ∀ s : UnknownPleasures σ α, updates (a ++ b) s = (updates a s >>= updates b) := by
  induction a with
  | nil => intro s; rfl
  | cons tick a ih =>
    intro s
    simp only [List.cons_append, updates, bind, Except.bind]
    cases update tick.1 tick.2 s with
    | error err => rfl
    | ok s1 => exact ih s1

/-- With `waveMomentum = 0` and `perlinNoiseMagnitude = 0`, the height a column `j + 1` holds
after one `update` is the height column `j` held before it. -/
theorem update_shifts (W : World σ α) (fuel : Nat) (s s2 : UnknownPleasures σ α)
    (hwf : WellFormed s) (h : update W fuel s = .ok s2)
    (hm : s.mParams.waveMomentum = 0) (hg : s.mParams.perlinNoiseMagnitude = 0)
    (i j : Nat) (y : α) (hy : heightAt s2 i (j + 1) = some y) : heightAt s i j = some y := by
  obtain ⟨hwf2, hshape⟩ := update_shape W fuel s s2 hwf h
  simp only [heightAt, Option.map_eq_some', Option.bind_eq_some] at hy
  obtain ⟨v, ⟨new, hnew, hv⟩, rfl⟩ := hy
  have hi : i < s.mStormyWaves.length := by
    have h1 := (List.getElem?_eq_some_iff.mp hnew).1
    have h2 := congrArg List.length hshape
    simp only [List.length_map] at h2
    omega
  obtain ⟨e, waveQueue, h1⟩ :=
    update_row_stormy W fuel s s2 hwf h i _ (List.getElem?_eq_getElem hi)
  have hnew2 : new = newStormy W s.mParams e waveQueue s.mStormyWaves[i] :=
    Option.some.inj (hnew.symm.trans h1)
  have hj : j + 1 < s.mStormyWaves[i].length := by
    have := (List.getElem?_eq_some_iff.mp hv).1
    rw [hnew2, newStormy, length_doubleBuffered] at this
    exact this
  have hv2 : (newStormy W s.mParams e waveQueue s.mStormyWaves[i])[j + 1]? = some _ :=
    getElem?_doubleBuffered_succ W s.mParams _ _ j s.mStormyWaves[i][j + 1]
      s.mStormyWaves[i][j] (List.getElem?_eq_getElem hj) (List.getElem?_eq_getElem (by omega))
  rw [hnew2, hv2, Option.some.injEq] at hv
  subst hv
  have hj2 : j < s.mStormyWaves[i].length := by omega
  simp only [heightAt, List.getElem?_eq_getElem hi, Option.some_bind,
    List.getElem?_eq_getElem hj2, Option.map_some', smoothed, hm, hg]
  simp

/-- C17. With `waveMomentum = 0` and `perlinNoiseMagnitude = 0`, after `k` consecutive updates
of a well-formed field (that all return), the stormy height at a column `j` of a row is the
height column `j - k` of the row held before them when `j ≥ k`, and the height column 0 of
the row held right after update number `k - j` when `j < k`. -/
theorem disturbance_travels_one_column (ticks : List (World σ α × Nat)) :
    ∀ (s s2 : UnknownPleasures σ α), WellFormed s → s.mParams.waveMomentum = 0 →
      s.mParams.perlinNoiseMagnitude = 0 → updates ticks s = .ok s2 →
      ∀ (i j : Nat) (y : α), heightAt s2 i j = some y →
        (ticks.length ≤ j → heightAt s i (j - ticks.length) = some y) ∧
        (j < ticks.length →
          ∃ sm, updates (ticks.take (ticks.length - j)) s = .ok sm ∧
            heightAt sm i 0 = some y) := by
  induction ticks with
  | nil =>
    intro s s2 _ _ _ h i j y hy
    simp only [updates, Except.ok.injEq] at h
    subst h
    exact ⟨fun _ => hy, fun hj => absurd hj (by simp)⟩
  | cons tick ticks ih =>
    intro s s2 hwf hm hg h i j y hy
    simp only [updates, bind, Except.bind] at h
    split at h
    · exact absurd h (by simp)
    · rename_i s1 h1
      obtain ⟨hwf1, -⟩ := update_shape tick.1 tick.2 s s1 hwf h1
      obtain ⟨-, -, hP⟩ := update_frame tick.1 tick.2 s s1 hwf h1
      obtain ⟨ha, hb⟩ := ih s1 s2 hwf1 (by rw [hP]; exact hm) (by rw [hP]; exact hg) h i j y hy
      have hone : updates [tick] s = .ok s1 := by
        simp only [updates, h1, bind, Except.bind]
      constructor
      · intro hk
        simp only [List.length_cons] at hk
        have h2 := ha (by omega)
        have e : j - ticks.length = (j - (ticks.length + 1)) + 1 := by omega
        rw [e] at h2
        simpa using update_shifts tick.1 tick.2 s s1 hwf h1 hm hg i _ y h2
      · intro hk
        simp only [List.length_cons] at hk
        rcases Nat.lt_or_ge j ticks.length with hlt | hge
        · obtain ⟨sm, hsm, hy0⟩ := hb hlt
          refine ⟨sm, ?_, hy0⟩
          have e : (tick :: ticks).length - j = (ticks.length - j) + 1 := by
            simp only [List.length_cons]; omega
          rw [e, List.take_succ_cons]
          simp only [updates, h1, bind, Except.bind]
          exact hsm
        · have hj : j = ticks.length := by omega
          refine ⟨s1, ?_, ?_⟩
          · have e : (tick :: ticks).length - j = 1 := by
              simp only [List.length_cons]; omega
            rw [e]
            simpa using hone
          · have := ha hge
            rwa [hj, Nat.sub_self] at this

end Shift

/-- The first update of the pure-shift field in the sample world. -/
theorem pureShiftField_tick1 : update sampleWorld 0 pureShiftField = .ok pureShiftField1 := by
  have hocc : waveOccurrence sampleWorld 0 pureShiftField = .ok pureShiftField := rfl
  rw [update_ok _ 0 pureShiftField _ ⟨rfl, rfl⟩ hocc]
  simp [pureShiftField, pureShiftField1, sampleWorld, quietWorld, oneRow, rowsAfter, newStormy,
    newCalm, doubleBuffered, damped, smoothed, edgeValue, edgeSample, queueAfterRow,
    engineAfterRow, envelope, toyLibm]
  norm_num

/-- The second update of the pure-shift field in the sample world. -/
theorem pureShiftField_tick2 : update sampleWorld 0 pureShiftField1 = .ok pureShiftField2 := by
  have hocc : waveOccurrence sampleWorld 0 pureShiftField1 = .ok pureShiftField1 := rfl
  rw [update_ok _ 0 pureShiftField1 _ ⟨rfl, rfl⟩ hocc]
  simp [pureShiftField1, pureShiftField2, sampleWorld, quietWorld, oneRow, rowsAfter, newStormy,
    newCalm, doubleBuffered, damped, smoothed, edgeValue, edgeSample, queueAfterRow,
    engineAfterRow, envelope, toyLibm]
  norm_num

/-- Two updates of the pure-shift field in the sample world. -/
theorem pureShiftField_two_ticks :
    updates [(sampleWorld, 0), (sampleWorld, 0)] pureShiftField = .ok pureShiftField2 := by
  simp only [updates, pureShiftField_tick1, pureShiftField_tick2, bind, Except.bind]

/-- C17, witness: two updates of the pure-shift field, whose heights `[1, 2, 3]` become
`[13, 12, 1]`. -/
theorem disturbance_travels_one_column_witness :
    WellFormed pureShiftField ∧ pureShiftField.mParams.waveMomentum = 0 ∧
    pureShiftField.mParams.perlinNoiseMagnitude = 0 ∧
    updates [(sampleWorld, 0), (sampleWorld, 0)] pureShiftField = .ok pureShiftField2 ∧
    ∀ (i j : Nat) (y : ℚ), heightAt pureShiftField2 i j = some y →
      ([(sampleWorld, 0), (sampleWorld, 0)].length ≤ j →
        heightAt pureShiftField i (j - [(sampleWorld, 0), (sampleWorld, 0)].length) = some y) ∧
      (j < [(sampleWorld, 0), (sampleWorld, 0)].length →
        ∃ sm, updates ([(sampleWorld, 0), (sampleWorld, 0)].take
              ([(sampleWorld, 0), (sampleWorld, 0)].length - j)) pureShiftField = .ok sm ∧
          heightAt sm i 0 = some y) :=
  ⟨⟨rfl, rfl⟩, rfl, rfl, pureShiftField_two_ticks,
    disturbance_travels_one_column [(sampleWorld, 0), (sampleWorld, 0)] pureShiftField
      pureShiftField2 ⟨rfl, rfl⟩ rfl rfl pureShiftField_two_ticks⟩

/-! ## C16: the pending-wave queue is drained in FIFO order -/

section RowEngine
variable {σ α : Type} [LinearOrderedField α]

/-- Row `i` of `rowsAfter` with the engine state made explicit: the stormy polyline is the row
update started in the engine state in which the loop reaches the row, and the queue has lost
its front when the row has a column. -/
theorem rowsAfter_getElem?_engine (W : World σ α) (P : Params α) (mWidth : Int)
    (stormy : List (ofPolyline α)) :
    ∀ (calms : List (ofPolyline α)) (queues : List (List α)) (e : σ) (i : Nat)
      (old calm : ofPolyline α) (waveQueue : List α),
      stormy[i]? = some old → calms[i]? = some calm → queues[i]? = some waveQueue →
      (rowsAfter W P mWidth stormy calms queues e).1[i]?
        = some (newStormy W P (engineAtRow W P stormy i e) waveQueue old) ∧
      (rowsAfter W P mWidth stormy calms queues e).2.2.1[i]?
        = some (queueAfterRow old waveQueue) := by
  induction stormy with
  | nil => intro calms queues e i old calm waveQueue h; simp at h
  | cons a stormy ih =>
    intro calms queues e i old calm waveQueue hS hC hQ
    cases calms with
    | nil => simp at hC
    | cons c calms =>
      cases queues with
      | nil => simp at hQ
      | cons q queues =>
        cases i with
        | zero =>
          simp only [List.getElem?_cons_zero, Option.some.injEq] at hS hC hQ
          subst hS; subst hC; subst hQ
          simp [rowsAfter, engineAtRow]
        | succ i =>
          simp only [List.getElem?_cons_succ] at hS hC hQ
          obtain ⟨h1, h2⟩ :=
            ih calms queues (engineAfterRow W P a e) i old calm waveQueue hS hC hQ
          simp [rowsAfter, engineAtRow, h1, h2]

end RowEngine

section RowQuietLemmas
variable {σ α : Type} [LinearOrderedField α] [FloorSemiring α]

/-- When the Bernoulli draw for queue `i` is `false`, the wave occurrence loop leaves queue
`i` as it is. -/
theorem occurAll_keeps_quiet (R : Rng σ α) (P : Params α) (fuel : Nat)
    (queues : List (List α)) :
    ∀ (i : Nat) (e : σ) (r ri : List (List α) × σ),
      occurAll R P fuel queues e = .ok r →
      occurAll R P fuel (queues.take i) e = .ok ri →
      (R.bernoulli P.waveOccurProb ri.2).1 = false →
      r.1[i]? = queues[i]? := by
  induction queues with
  | nil =>
    intro i e r ri h _ _
    simp only [occurAll, Except.ok.injEq] at h
    subst h
    rfl
  | cons q queues ih =>
    intro i e r ri h hi hb
    simp only [occurAll, bind, Except.bind, pure, Except.pure] at h
    split at h
    · exact absurd h (by simp)
    · rename_i r0 h0
      split at h
      · exact absurd h (by simp)
      · rename_i rs hrs
        simp only [Except.ok.injEq] at h
        subst h
        cases i with
        | zero =>
          simp only [List.take_zero, occurAll, Except.ok.injEq] at hi
          subst hi
          simp only [occur, hb, Bool.false_eq_true, if_false, pure, Except.pure,
            Except.ok.injEq] at h0
          subst h0
          simp
        | succ i =>
          simp only [List.take_succ_cons, occurAll, bind, Except.bind, pure, Except.pure,
            h0] at hi
          split at hi
          · exact absurd hi (by simp)
          · rename_i ri1 hri1
            simp only [Except.ok.injEq] at hi
            subst hi
            simpa using ih i r0.2 rs ri1 hrs hri1 hb

/-- When no wave occurs for row `i`, the first loop of `update` leaves the row's queue as it
is. -/
theorem waveOccurrence_keeps_quiet (W : World σ α) (fuel : Nat) (s s1 : UnknownPleasures σ α)
    (i : Nat) (hq : RowQuiet W fuel s i) (h : waveOccurrence W fuel s = .ok s1) :
    s1.mWaveQueues[i]? = s.mWaveQueues[i]? := by
  obtain ⟨ri, hri, hb⟩ := hq
  simp only [waveOccurrence, bind, Except.bind, pure, Except.pure] at h
  split at h
  · exact absurd h (by simp)
  · rename_i r hr
    simp only [Except.ok.injEq] at h
    subst h
    exact occurAll_keeps_quiet W.rng s.mParams fuel s.mWaveQueues i s.mEngine r ri hr hri hb

/-- One `update` at the left edge of a row with a column: column 0 gets the uniform sample
drawn for the row plus the front of the queue the first loop left, and the queue loses its
front. -/
theorem update_left_edge (W : World σ α) (fuel : Nat) (s s1 s2 : UnknownPleasures σ α)
    (hwf : WellFormed s) (hocc : waveOccurrence W fuel s = .ok s1)
    (h : update W fuel s = .ok s2) (i : Nat) (p : Vec3 α) (rest : ofPolyline α)
    (waveQueue : List α) (hS : s.mStormyWaves[i]? = some (p :: rest))
    (hQ : s1.mWaveQueues[i]? = some waveQueue) :
    heightAt s2 i 0 = some (edgeValue
        (edgeSample W s.mParams (engineAtRow W s.mParams s.mStormyWaves i s1.mEngine))
        waveQueue) ∧
      s2.mWaveQueues[i]? = some waveQueue.tail ∧
      ∃ (p2 : Vec3 α) (rest2 : ofPolyline α), s2.mStormyWaves[i]? = some (p2 :: rest2) := by
  rw [update_ok W fuel s s1 hwf hocc, Except.ok.injEq] at h
  subst h
  have hi : i < s.mStormyWaves.length := (List.getElem?_eq_some_iff.mp hS).1
  have hiC : i < s.mCalmWaves.length := by
    have := congrArg List.length hwf.1
    simp only [List.length_map] at this
    omega
  obtain ⟨h1, h2⟩ := rowsAfter_getElem?_engine W s.mParams s.mWidth s.mStormyWaves
    s.mCalmWaves s1.mWaveQueues s1.mEngine i _ _ _ hS (List.getElem?_eq_getElem hiC) hQ
  refine ⟨?_, ?_, ?_⟩
  · simp only [heightAt, h1, Option.some_bind]
    simp [newStormy, doubleBuffered]
  · simpa [queueAfterRow] using h2
  · exact ⟨_, _, by simpa [newStormy, doubleBuffered] using h1⟩

end RowQuietLemmas

section ClaimFifo
variable {σ α : Type} [LinearOrderedField α] [FloorSemiring α]

/-- C16. On consecutive updates of a well-formed field on which no wave occurs for a row with
at least one column and pending queue `q`: when the updates return, the row's queue is `q`
without its first `k` elements (empty once `k ≥ len(q)`), `k` the number of updates; and on
update number `t + 1` column 0 of the row receives that update's uniform sample for the row
plus `q[t]` when `t < len(q)`, and the uniform sample alone when the queue has run empty
(`t ≥ len(q)`). The uniform sample is the one drawn in the engine state in which the second
loop reaches the row. -/
theorem queue_drains_fifo (i : Nat) (ticks : List (World σ α × Nat)) :
    ∀ (s s2 : UnknownPleasures σ α) (p : Vec3 α) (rest : ofPolyline α) (waveQueue : List α),
      WellFormed s → s.mStormyWaves[i]? = some (p :: rest) →
      s.mWaveQueues[i]? = some waveQueue → RowQuietRun i ticks s →
      updates ticks s = .ok s2 →
      s2.mWaveQueues[i]? = some (waveQueue.drop ticks.length) ∧
      ∀ (t : Nat) (tick : World σ α × Nat) (sa sb sc : UnknownPleasures σ α),
        ticks[t]? = some tick → updates (ticks.take t) s = .ok sa →
        waveOccurrence tick.1 tick.2 sa = .ok sb → update tick.1 tick.2 sa = .ok sc →
        ∃ y : α, heightAt sc i 0 = some y ∧
          (∀ a : α, waveQueue[t]? = some a →
            y = edgeSample tick.1 sa.mParams
                  (engineAtRow tick.1 sa.mParams sa.mStormyWaves i sb.mEngine) + a) ∧
          (waveQueue.length ≤ t →
            y = edgeSample tick.1 sa.mParams
                  (engineAtRow tick.1 sa.mParams sa.mStormyWaves i sb.mEngine)) := by
  induction ticks with
  | nil =>
    intro s s2 p rest waveQueue _ _ hQ _ h
    simp only [updates, Except.ok.injEq] at h
    subst h
    exact ⟨by simpa using hQ, fun t tick sa sb sc ht => by simp at ht⟩
  | cons tick0 ticks ih =>
    intro s s2 p rest waveQueue hwf hS hQ hq h
    simp only [updates, bind, Except.bind] at h
    split at h
    · exact absurd h (by simp)
    · rename_i s1 h1
      obtain ⟨sb0, hocc0⟩ := waveOccurrence_of_update tick0.1 tick0.2 s s1 h1
      have hQ0 := (waveOccurrence_keeps_quiet tick0.1 tick0.2 s sb0 i hq.1 hocc0).trans hQ
      obtain ⟨-, hq1, p2, rest2, hS1⟩ :=
        update_left_edge tick0.1 tick0.2 s sb0 s1 hwf hocc0 h1 i p rest waveQueue hS hQ0
      obtain ⟨hwf1, -⟩ := update_shape tick0.1 tick0.2 s s1 hwf h1
      obtain ⟨k1, k2⟩ := ih s1 s2 p2 rest2 waveQueue.tail hwf1 hS1 hq1 (hq.2 s1 h1) h
      constructor
      · rw [k1]
        cases waveQueue <;> simp
      · intro t tick sa sb sc ht hsa hsb hsc
        cases t with
        | zero =>
          simp only [List.getElem?_cons_zero, Option.some.injEq] at ht
          subst ht
          simp only [List.take_zero, updates, Except.ok.injEq] at hsa
          subst hsa
          have hQb := (waveOccurrence_keeps_quiet tick0.1 tick0.2 s sb i hq.1 hsb).trans hQ
          obtain ⟨hy, -, -⟩ :=
            update_left_edge tick0.1 tick0.2 s sb sc hwf hsb hsc i p rest waveQueue hS hQb
          refine ⟨_, hy, ?_, ?_⟩
          · intro a ha
            cases waveQueue with
            | nil => simp at ha
            | cons b bs =>
              simp only [List.getElem?_cons_zero, Option.some.injEq] at ha
              simp [edgeValue, ha]
          · intro hlen
            have : waveQueue = [] := List.length_eq_zero.mp (by omega)
            simp [this, edgeValue]
        | succ t =>
          simp only [List.getElem?_cons_succ] at ht
          simp only [List.take_succ_cons, updates, h1, bind, Except.bind] at hsa
          obtain ⟨y, hy, ha, hb⟩ := k2 t tick sa sb sc ht hsa hsb hsc
          refine ⟨y, hy, ?_, ?_⟩
          · intro a hqa
            apply ha
            cases waveQueue with
            | nil => simp at hqa
            | cons b bs => simpa using hqa
          · intro hlen
            apply hb
            simp only [List.length_tail]
            omega

end ClaimFifo

section RowQuietNever
variable {σ α : Type} [LinearOrderedField α] [FloorSemiring α]

theorem rowQuiet_of_never (W : World σ α)
    (h : ∀ (p : α) (e : σ), (W.rng.bernoulli p e).1 = false) (fuel : Nat)
    (s : UnknownPleasures σ α) (i : Nat) : RowQuiet W fuel s i :=
  ⟨_, occurAll_of_noWave W.rng s.mParams fuel _ _ (noWave_of_never W.rng s.mParams h _ _), h _ _⟩

theorem rowQuietRun_of_never (i : Nat) (ticks : List (World σ α × Nat)) :
    (∀ tick ∈ ticks, ∀ (p : α) (e : σ), (tick.1.rng.bernoulli p e).1 = false) →
      ∀ s : UnknownPleasures σ α, RowQuietRun i ticks s := by
  induction ticks with
  | nil => intro _ s; trivial
  | cons tick ticks ih =>
    intro h s
    exact ⟨rowQuiet_of_never tick.1 (h tick (List.mem_cons_self _ _)) tick.2 s i,
      fun s1 _ => ih (fun t ht => h t (List.mem_cons_of_mem _ ht)) s1⟩

end RowQuietNever

/-- C16, witness: two quiet updates of the pure-shift field, whose row 0 has the pending
queue `[5, 6]`. -/
theorem queue_drains_fifo_witness :
    WellFormed pureShiftField ∧
    pureShiftField.mStormyWaves[0]? = some (⟨-2, 1, 0⟩ :: [⟨-1, 2, 0⟩, ⟨0, 3, 0⟩]) ∧
    pureShiftField.mWaveQueues[0]? = some [5, 6] ∧
    RowQuietRun 0 [(sampleWorld, 0), (sampleWorld, 0)] pureShiftField ∧
    updates [(sampleWorld, 0), (sampleWorld, 0)] pureShiftField = .ok pureShiftField2 ∧
    (pureShiftField2.mWaveQueues[0]?
        = some (([5, 6] : List ℚ).drop [(sampleWorld, 0), (sampleWorld, 0)].length) ∧
      ∀ (t : Nat) (tick : World Unit ℚ × Nat) (sa sb sc : UnknownPleasures Unit ℚ),
        [(sampleWorld, 0), (sampleWorld, 0)][t]? = some tick →
        updates ([(sampleWorld, 0), (sampleWorld, 0)].take t) pureShiftField = .ok sa →
        waveOccurrence tick.1 tick.2 sa = .ok sb → update tick.1 tick.2 sa = .ok sc →
        ∃ y : ℚ, heightAt sc 0 0 = some y ∧
          (∀ a : ℚ, ([5, 6] : List ℚ)[t]? = some a →
            y = edgeSample tick.1 sa.mParams
                  (engineAtRow tick.1 sa.mParams sa.mStormyWaves 0 sb.mEngine) + a) ∧
          (([5, 6] : List ℚ).length ≤ t →
            y = edgeSample tick.1 sa.mParams
                  (engineAtRow tick.1 sa.mParams sa.mStormyWaves 0 sb.mEngine))) :=
  have hq : RowQuietRun 0 [(sampleWorld, 0), (sampleWorld, 0)] pureShiftField :=
    rowQuietRun_of_never 0 _ (by simp [sampleWorld, quietWorld]) _
  ⟨⟨rfl, rfl⟩, rfl, rfl, hq, pureShiftField_two_ticks,
    queue_drains_fifo 0 [(sampleWorld, 0), (sampleWorld, 0)] pureShiftField pureShiftField2
      ⟨-2, 1, 0⟩ [⟨-1, 2, 0⟩, ⟨0, 3, 0⟩] [5, 6] ⟨rfl, rfl⟩ rfl rfl hq pureShiftField_two_ticks⟩

end UnknownPleasures
